import Mathlib

/-!
Verification development for the schema-grading engine
(`v1/schema_grader`): normalizer/canonicalizer, fuzzy scorer, type
compatibility checker, column matcher, table matcher and schema score
aggregator, shallowly embedded in Lean.

External dependencies of the Python code (the Unicode NFD tables behind
`unicodedata`, the `rapidfuzz` string metrics, the Gemini embedding
backend and SciPy's `linear_sum_assignment`) are abstracted as explicit
parameters; the properties the code relies on (value ranges, assignment
validity and optimality) appear as hypotheses of the theorems.
-/

namespace SchemaGrader

/-! ### Character classes used by the regexes in `utils/constants.py`:
`RE_CAMEL = ([a-z])([A-Z])`, `RE_NONAZ = [^a-z0-9\s]`, `RE_WS = \s+`. -/

/-- ASCII lowercase letter, the `[a-z]` class. -/
def isAsciiLower (c : Char) : Bool := 97 ≤ c.toNat && c.toNat ≤ 122

/-- ASCII uppercase letter, the `[A-Z]` class. -/
def isAsciiUpper (c : Char) : Bool := 65 ≤ c.toNat && c.toNat ≤ 90

/-- Character kept by `RE_NONAZ` besides whitespace: `[a-z0-9]`. -/
def isGoodChar (c : Char) : Bool := (isAsciiLower c) || (48 ≤ c.toNat && c.toNat ≤ 57)

/-- ASCII whitespace, the `\s` class of the regexes. -/
def isPySpace (c : Char) : Bool :=
  c = ' ' || c = '\t' || c = '\n' || c = '\x0b' || c = '\x0c' || c = '\r'

/-! ### `utils/normalizer.py` -/

/-- Step (1a) of `normalize`: `RE_CAMEL.sub(r'\1 \2', txt)`, inserting a
space at every lower→upper boundary, scanning left to right without
overlap (a match consumes both characters). -/
def camelSplit : List Char → List Char
  | [] => []
  | [c] => [c]
  | c1 :: c2 :: rest =>
    if isAsciiLower c1 && isAsciiUpper c2 then c1 :: ' ' :: c2 :: camelSplit rest
    else c1 :: camelSplit (c2 :: rest)

/-- Step (1b) of `normalize`: `.replace('_', ' ')`. -/
def underscoreToSpace (l : List Char) : List Char :=
  l.map fun c => if c = '_' then ' ' else c

/-- Step (4) of `normalize`: `RE_NONAZ.sub(' ', txt)` replaces every
character outside `[a-z0-9\s]` by a space. -/
def nonazToSpace (l : List Char) : List Char :=
  l.map fun c => if isGoodChar c || isPySpace c then c else ' '

/-- First half of step (5): `RE_WS.sub(' ', txt)` replaces every maximal
whitespace run by a single space. -/
def wsCollapse : List Char → List Char
  | [] => []
  | [c] => if isPySpace c then [' '] else [c]
  | c :: d :: rest =>
    if isPySpace c then
      (if isPySpace d then wsCollapse (d :: rest) else ' ' :: wsCollapse (d :: rest))
    else c :: wsCollapse (d :: rest)

/-- Second half of step (5): `.strip()`. -/
def stripSp (l : List Char) : List Char :=
  ((l.dropWhile isPySpace).reverse.dropWhile isPySpace).reverse

/-- `normalize` of `utils/normalizer.py` on character lists.  The
parameter `nf` stands for steps (2)–(3), `unicodedata.normalize('NFD', ·)`
followed by dropping combining marks (category `Mn`) and `.lower()`,
applied characterwise; it is abstracted because it is driven by the
external Unicode tables. -/
def normalizeL (nf : Char → List Char) (l : List Char) : List Char :=
  stripSp (wsCollapse (nonazToSpace (((underscoreToSpace (camelSplit l)).map nf).flatten)))

/-- `normalize(txt)` of `utils/normalizer.py`. -/
def normalize (nf : Char → List Char) (s : String) : String :=
  ⟨normalizeL nf s.data⟩

/-! ### `utils/alias_maps.py` -/

/-- The `TABLE_ALIAS` dictionary, in source order. -/
def TABLE_ALIAS : List (String × String) :=
  [("chitien", "tratien"),
   ("ct_chitien", "ct_tratien"),
   ("chitietchitien", "chitiettratien"),
   ("pmh", "phieumuahang"),
   ("manv", "manhanvien"),
   ("sohd", "sohoadon")]

/-- The `SCHEMA_SYNONYMS` dictionary, in source order. -/
def SCHEMA_SYNONYMS : List (String × String) :=
  [("chi", "tra"),
   ("chi tien", "tra tien"),
   ("phieu chi", "phieu tra tien"),
   ("chitiet", "chi tiet"),
   ("ct", "chi tiet"),
   ("chitietchitien", "chitiettratien"),
   ("ct_chitien", "chitiettratien"),
   ("cttratien", "chitiettratien"),
   ("cttt", "chitiettratien"),
   ("chitien", "tratien"),
   ("phieuchi", "phieutratien"),
   ("phieunhap", "phieumuahang"),
   ("tra", "tra"),
   ("tratien", "tratien"),
   ("chitiettratien", "chitiettratien"),
   ("phieutratien", "phieutratien")]

/-- `build_bidirectional_synonyms(syn_dict)`: for each pair, write
`result[k] = v` then `result[v] = v`, later writes shadowing earlier
ones (Python `dict` assignment).  The resulting dictionary is modelled
as its lookup function. -/
def build_bidirectional_synonyms (l : List (String × String)) : String → Option String :=
  l.foldl
    (fun f kv x => if x = kv.2 then some kv.2 else if x = kv.1 then some kv.2 else f x)
    (fun _ => none)

/-- The module-level `_TABLE_ALIASES` map of `utils/normalizer.py`. -/
def tableAliases : String → Option String := build_bidirectional_synonyms TABLE_ALIAS

/-- The module-level `_SYNONYMS` map of `utils/normalizer.py`. -/
def synonyms : String → Option String := build_bidirectional_synonyms SCHEMA_SYNONYMS

/-- The dictionary-substitution half of `canonical`: try the table alias
first, then the general synonym map, else keep the normalized text. -/
def applyMaps (norm : String) : String :=
  match tableAliases norm with
  | some v => v
  | none =>
    match synonyms norm with
    | some v => v
    | none => norm

/-- `canonical(txt)` of `utils/normalizer.py`. -/
def canonical (nf : Char → List Char) (txt : String) : String :=
  applyMaps (normalize nf txt)

/-! ### Normal forms of `normalize` -/

/-- Adjacent characters are not both whitespace. -/
def noAdjSp (l : List Char) : Prop :=
  List.Chain' (fun a b => ¬(isPySpace a = true ∧ isPySpace b = true)) l

/-- A string is in normal form when it only holds `[a-z0-9 ]` characters
and is fixed by whitespace collapsing and stripping. -/
def NF (s : String) : Prop :=
  (∀ c ∈ s.data, isGoodChar c = true ∨ c = ' ') ∧ stripSp (wsCollapse s.data) = s.data

instance : DecidablePred NF := by
  intro s
  unfold NF
  infer_instance

theorem camelSplit_id : ∀ l : List Char, (∀ c ∈ l, isAsciiUpper c = false) → camelSplit l = l
  | [], _ => rfl
  | [_], _ => rfl
  | c1 :: c2 :: rest, h => by
    have h2 : isAsciiUpper c2 = false := h c2 (by simp)
    rw [camelSplit, if_neg (by simp [h2]), camelSplit_id (c2 :: rest) (fun c hc => h c (by simp [hc]))]

theorem underscoreToSpace_id (l : List Char) (h : ∀ c ∈ l, c ≠ '_') :
    underscoreToSpace l = l := by
  unfold underscoreToSpace
  induction l with
  | nil => rfl
  | cons c t ih =>
    simp only [List.map_cons, List.cons.injEq]
    exact ⟨by simp [h c (by simp)], ih (fun c hc => h c (by simp [hc]))⟩

theorem flatten_map_id (nf : Char → List Char) (l : List Char)
    (h : ∀ c ∈ l, nf c = [c]) : (l.map nf).flatten = l := by
  induction l with
  | nil => rfl
  | cons c t ih =>
    simp only [List.map_cons, List.flatten_cons, h c (by simp)]
    rw [ih (fun c hc => h c (by simp [hc]))]
    rfl

theorem nonazToSpace_id (l : List Char) (h : ∀ c ∈ l, isGoodChar c = true ∨ isPySpace c = true) :
    nonazToSpace l = l := by
  unfold nonazToSpace
  induction l with
  | nil => rfl
  | cons c t ih =>
    simp only [List.map_cons, List.cons.injEq]
    refine ⟨?_, ih (fun c hc => h c (by simp [hc]))⟩
    rcases h c (by simp) with hg | hs
    · simp [hg]
    · simp [hs]

theorem mem_wsCollapse : ∀ l : List Char, ∀ c ∈ wsCollapse l, c = ' ' ∨ c ∈ l
  | [], c, hc => by simp [wsCollapse] at hc
  | [d], c, hc => by
    by_cases h : isPySpace d = true
    · simp [wsCollapse, h] at hc; left; exact hc
    · simp [wsCollapse, h] at hc; right; simp [hc]
  | c1 :: c2 :: rest, c, hc => by
    by_cases h1 : isPySpace c1 = true
    · by_cases h2 : isPySpace c2 = true
      · rw [wsCollapse, if_pos h1, if_pos h2] at hc
        rcases mem_wsCollapse (c2 :: rest) c hc with h | h
        · left; exact h
        · right; simp [h]
      · rw [wsCollapse, if_pos h1, if_neg h2] at hc
        rcases List.mem_cons.mp hc with h | h
        · left; exact h
        · rcases mem_wsCollapse (c2 :: rest) c h with h' | h'
          · left; exact h'
          · right; simp [h']
    · rw [wsCollapse, if_neg h1] at hc
      rcases List.mem_cons.mp hc with h | h
      · right; simp [h]
      · rcases mem_wsCollapse (c2 :: rest) c h with h' | h'
        · left; exact h'
        · right; simp [h']

theorem head?_wsCollapse : ∀ (c : Char) (rest : List Char),
    (wsCollapse (c :: rest)).head? = some (if isPySpace c then ' ' else c)
  | c, [] => by
    by_cases h : isPySpace c = true
    · simp [wsCollapse, h]
    · simp [wsCollapse, h]
  | c, d :: rest => by
    by_cases h1 : isPySpace c = true
    · by_cases h2 : isPySpace d = true
      · rw [wsCollapse, if_pos h1, if_pos h2, head?_wsCollapse d rest]
        simp [h1, h2]
      · rw [wsCollapse, if_pos h1, if_neg h2]
        simp [h1]
    · rw [wsCollapse, if_neg h1]
      simp [h1]


theorem wsCollapse_onlySp : ∀ l : List Char, ∀ c ∈ wsCollapse l, isPySpace c = true → c = ' '
  | [], c, hc, _ => by simp [wsCollapse] at hc
  | [d], c, hc, hsp => by
    by_cases h : isPySpace d = true
    · simp [wsCollapse, h] at hc; exact hc
    · simp [wsCollapse, h] at hc; rw [hc] at hsp; rw [hsp] at h; exact absurd rfl h
  | c1 :: c2 :: rest, c, hc, hsp => by
    by_cases h1 : isPySpace c1 = true
    · by_cases h2 : isPySpace c2 = true
      · rw [wsCollapse, if_pos h1, if_pos h2] at hc
        exact wsCollapse_onlySp (c2 :: rest) c hc hsp
      · rw [wsCollapse, if_pos h1, if_neg h2] at hc
        rcases List.mem_cons.mp hc with h | h
        · exact h
        · exact wsCollapse_onlySp (c2 :: rest) c h hsp
    · rw [wsCollapse, if_neg h1] at hc
      rcases List.mem_cons.mp hc with h | h
      · rw [h] at hsp; rw [hsp] at h1; exact absurd rfl h1
      · exact wsCollapse_onlySp (c2 :: rest) c h hsp

theorem noAdjSp_wsCollapse : ∀ l : List Char, noAdjSp (wsCollapse l)
  | [] => by simp [wsCollapse, noAdjSp]
  | [d] => by
    by_cases h : isPySpace d = true
    · simp [wsCollapse, h, noAdjSp]
    · simp [wsCollapse, h, noAdjSp]
  | c1 :: c2 :: rest => by
    by_cases h1 : isPySpace c1 = true
    · by_cases h2 : isPySpace c2 = true
      · rw [wsCollapse, if_pos h1, if_pos h2]
        exact noAdjSp_wsCollapse (c2 :: rest)
      · rw [wsCollapse, if_pos h1, if_neg h2]
        have htail := noAdjSp_wsCollapse (c2 :: rest)
        unfold noAdjSp at htail ⊢
        rw [List.chain'_cons']
        refine ⟨?_, htail⟩
        intro b hb
        rw [head?_wsCollapse c2 rest] at hb
        simp only [Option.mem_def, Option.some.injEq] at hb
        rw [if_neg h2] at hb
        intro hcontra
        rw [← hb] at hcontra
        exact h2 hcontra.2
    · rw [wsCollapse, if_neg h1]
      have htail := noAdjSp_wsCollapse (c2 :: rest)
      unfold noAdjSp at htail ⊢
      rw [List.chain'_cons']
      refine ⟨?_, htail⟩
      intro b hb
      intro hcontra
      exact absurd hcontra.1 (by simp [h1])

theorem wsCollapse_fix : ∀ l : List Char,
    (∀ c ∈ l, isPySpace c = true → c = ' ') → noAdjSp l → wsCollapse l = l
  | [], _, _ => rfl
  | [d], hsp, _ => by
    by_cases h : isPySpace d = true
    · rw [wsCollapse, if_pos h, hsp d (by simp) h]
    · rw [wsCollapse, if_neg h]
  | c1 :: c2 :: rest, hsp, hch => by
    unfold noAdjSp at hch
    rw [List.chain'_cons] at hch
    by_cases h1 : isPySpace c1 = true
    · have h2 : isPySpace c2 = false := by
        by_contra hcon
        exact hch.1 ⟨h1, by revert hcon; cases isPySpace c2 <;> simp⟩
      rw [wsCollapse, if_pos h1, if_neg (by simp [h2]),
        wsCollapse_fix (c2 :: rest) (fun c hc => hsp c (by simp [hc])) hch.2,
        hsp c1 (by simp) h1]
    · rw [wsCollapse, if_neg h1,
        wsCollapse_fix (c2 :: rest) (fun c hc => hsp c (by simp [hc])) hch.2]


theorem noAdjSp_reverse (l : List Char) (h : noAdjSp l) : noAdjSp l.reverse := by
  unfold noAdjSp at *
  rw [List.chain'_reverse]
  exact h.imp (fun a b hr hc => hr ⟨hc.2, hc.1⟩)

theorem stripSp_subset (l : List Char) : ∀ c ∈ stripSp l, c ∈ l := by
  intro c hc
  unfold stripSp at hc
  rw [List.mem_reverse] at hc
  have h1 := (List.dropWhile_suffix (l := (l.dropWhile isPySpace).reverse) isPySpace).subset hc
  rw [List.mem_reverse] at h1
  exact (List.dropWhile_suffix isPySpace).subset h1

theorem noAdjSp_stripSp (l : List Char) (h : noAdjSp l) : noAdjSp (stripSp l) := by
  unfold stripSp
  apply noAdjSp_reverse
  apply List.Chain'.suffix _ (List.dropWhile_suffix isPySpace)
  apply noAdjSp_reverse
  exact List.Chain'.suffix h (List.dropWhile_suffix isPySpace)

theorem dropWhile_head_false (p : Char → Bool) :
    ∀ (l : List Char) (c : Char), (List.dropWhile p l).head? = some c → p c = false
  | [], c => by simp
  | a :: t, c => by
    by_cases h : p a = true
    · rw [List.dropWhile_cons, if_pos h]
      exact dropWhile_head_false p t c
    · rw [List.dropWhile_cons, if_neg h]
      intro hc
      simp only [List.head?_cons, Option.some.injEq] at hc
      rw [← hc]
      revert h
      cases p a <;> simp

theorem dropWhile_eq_self (p : Char → Bool) (l : List Char)
    (h : ∀ c : Char, l.head? = some c → p c = false) : List.dropWhile p l = l := by
  cases l with
  | nil => rfl
  | cons a t =>
    rw [List.dropWhile_cons, if_neg (by rw [h a rfl]; simp)]

theorem dropWhile_idem (p : Char → Bool) (l : List Char) :
    List.dropWhile p (List.dropWhile p l) = List.dropWhile p l :=
  dropWhile_eq_self p _ (fun c hc => dropWhile_head_false p l c hc)

theorem stripSp_head (l : List Char) (c : Char) (h : (stripSp l).head? = some c) :
    isPySpace c = false := by
  have hpre : stripSp l <+: l.dropWhile isPySpace := by
    unfold stripSp
    obtain ⟨s, hs⟩ := List.dropWhile_suffix (l := (l.dropWhile isPySpace).reverse) isPySpace
    exact ⟨s.reverse, by rw [← List.reverse_append, hs, List.reverse_reverse]⟩
  obtain ⟨r, hr⟩ := hpre
  cases hz : stripSp l with
  | nil => rw [hz] at h; simp at h
  | cons a t =>
    rw [hz] at h
    simp only [List.head?_cons, Option.some.injEq] at h
    rw [hz] at hr
    have ha : (l.dropWhile isPySpace).head? = some a := by rw [← hr]; rfl
    rw [← h]
    exact dropWhile_head_false isPySpace l a ha

theorem stripSp_idem (l : List Char) : stripSp (stripSp l) = stripSp l := by
  have hrev : (stripSp l).reverse = ((l.dropWhile isPySpace).reverse).dropWhile isPySpace := by
    unfold stripSp; rw [List.reverse_reverse]
  show ((((stripSp l).dropWhile isPySpace).reverse).dropWhile isPySpace).reverse = stripSp l
  rw [dropWhile_eq_self isPySpace (stripSp l) (fun c hc => stripSp_head l c hc), hrev,
    dropWhile_idem, ← hrev, List.reverse_reverse]

theorem stripSp_wsCollapse_idem (l : List Char) :
    stripSp (wsCollapse (stripSp (wsCollapse l))) = stripSp (wsCollapse l) := by
  have h1 : wsCollapse (stripSp (wsCollapse l)) = stripSp (wsCollapse l) := by
    apply wsCollapse_fix
    · intro c hc hsp
      exact wsCollapse_onlySp l c (stripSp_subset _ c hc) hsp
    · exact noAdjSp_stripSp _ (noAdjSp_wsCollapse l)
  rw [h1, stripSp_idem]

theorem good_not_upper (c : Char) (h : isGoodChar c = true) : isAsciiUpper c = false := by
  simp only [isGoodChar, isAsciiLower, isAsciiUpper, Bool.or_eq_true, Bool.and_eq_true,
    decide_eq_true_eq, Bool.and_eq_false_iff, decide_eq_false_iff_not] at *
  omega

theorem good_ne_underscore (c : Char) (h : isGoodChar c = true) : c ≠ '_' := by
  intro he
  rw [he] at h
  revert h
  decide

theorem mem_nonazToSpace (l : List Char) :
    ∀ c ∈ nonazToSpace l, isGoodChar c = true ∨ isPySpace c = true := by
  intro c hc
  unfold nonazToSpace at hc
  obtain ⟨a, _, ha⟩ := List.mem_map.mp hc
  by_cases h : (isGoodChar a || isPySpace a) = true
  · rw [if_pos h] at ha
    rw [← ha]
    exact Bool.or_eq_true _ _ |>.mp h
  · rw [if_neg h] at ha
    right
    rw [← ha]
    rfl

theorem normalize_NF (nf : Char → List Char) (s : String) : NF (normalize nf s) := by
  constructor
  · intro c hc
    have h1 := stripSp_subset _ c hc
    rcases mem_wsCollapse _ c h1 with h | h
    · right; exact h
    · rcases mem_nonazToSpace _ c h with hg | hs
      · left; exact hg
      · right; exact wsCollapse_onlySp _ c h1 hs
  · exact stripSp_wsCollapse_idem _

theorem normalize_of_NF (nf : Char → List Char)
    (hnf : ∀ c : Char, (isGoodChar c = true ∨ c = ' ') → nf c = [c])
    (s : String) (h : NF s) : normalize nf s = s := by
  obtain ⟨hchars, hfix⟩ := h
  have h1 : camelSplit s.data = s.data := camelSplit_id _ (fun c hc => by
    rcases hchars c hc with hg | hs
    · exact good_not_upper c hg
    · rw [hs]; rfl)
  have h2 : underscoreToSpace s.data = s.data := underscoreToSpace_id _ (fun c hc => by
    rcases hchars c hc with hg | hs
    · exact good_ne_underscore c hg
    · rw [hs]; decide)
  have h3 : (s.data.map nf).flatten = s.data :=
    flatten_map_id nf _ (fun c hc => hnf c (hchars c hc))
  have h4 : nonazToSpace s.data = s.data := nonazToSpace_id _ (fun c hc => by
    rcases hchars c hc with hg | hs
    · exact Or.inl hg
    · right; rw [hs]; rfl)
  show (⟨normalizeL nf s.data⟩ : String) = s
  unfold normalizeL
  rw [h1, h2, h3, h4, hfix]


/-! ### Idempotence of `canonical` -/

theorem bbs_foldl_mem (l : List (String × String)) :
    ∀ (f0 : String → Option String) (k v : String),
      l.foldl
        (fun f kv x => if x = kv.2 then some kv.2 else if x = kv.1 then some kv.2 else f x)
        f0 k = some v →
      (∃ kv ∈ l, kv.2 = v ∧ (k = kv.1 ∨ k = kv.2)) ∨ f0 k = some v := by
  induction l with
  | nil => intro f0 k v h; right; exact h
  | cons kv t ih =>
    intro f0 k v h
    rw [List.foldl_cons] at h
    rcases ih _ k v h with ⟨kv2, hm, hv, hk⟩ | h2
    · left; exact ⟨kv2, List.mem_cons_of_mem _ hm, hv, hk⟩
    · have h2 : (if k = kv.2 then some kv.2 else if k = kv.1 then some kv.2 else f0 k) = some v := h2
      by_cases e2 : k = kv.2
      · rw [if_pos e2] at h2
        simp only [Option.some.injEq] at h2
        left
        exact ⟨kv, List.mem_cons_self _ _, h2, Or.inr e2⟩
      · rw [if_neg e2] at h2
        by_cases e1 : k = kv.1
        · rw [if_pos e1] at h2
          simp only [Option.some.injEq] at h2
          left
          exact ⟨kv, List.mem_cons_self _ _, h2, Or.inl e1⟩
        · rw [if_neg e1] at h2
          right
          exact h2

theorem tableAliases_mem (k v : String) (h : tableAliases k = some v) :
    ∃ kv ∈ TABLE_ALIAS, kv.2 = v ∧ (k = kv.1 ∨ k = kv.2) := by
  unfold tableAliases build_bidirectional_synonyms at h
  rcases bbs_foldl_mem TABLE_ALIAS (fun _ => none) k v h with hm | hbase
  · exact hm
  · exact Option.noConfusion hbase

theorem synonyms_mem (k v : String) (h : synonyms k = some v) :
    ∃ kv ∈ SCHEMA_SYNONYMS, kv.2 = v ∧ (k = kv.1 ∨ k = kv.2) := by
  unfold synonyms build_bidirectional_synonyms at h
  rcases bbs_foldl_mem SCHEMA_SYNONYMS (fun _ => none) k v h with hm | hbase
  · exact hm
  · exact Option.noConfusion hbase

set_option maxHeartbeats 2000000 in
theorem applyMaps_fix (s : String) (h : NF s) :
    NF (applyMaps s) ∧ applyMaps (applyMaps s) = applyMaps s := by
  have hTAcheck : ∀ kv ∈ TABLE_ALIAS,
      (NF kv.1 ∨ NF kv.2) → (NF kv.2 ∧ applyMaps kv.2 = kv.2) := by decide
  have hSYcheck : ∀ kv ∈ SCHEMA_SYNONYMS,
      (NF kv.1 ∨ NF kv.2) → (NF kv.2 ∧ applyMaps kv.2 = kv.2) := by decide
  unfold applyMaps
  cases hTA : tableAliases s with
  | some v =>
    obtain ⟨kv, hmem, hv, hk⟩ := tableAliases_mem s v hTA
    have := hTAcheck kv hmem (by
      rcases hk with hk | hk
      · rw [hk] at h; exact Or.inl h
      · rw [hk] at h; exact Or.inr h)
    rw [hv] at this
    refine ⟨this.1, ?_⟩
    have h2 := this.2
    unfold applyMaps at h2
    exact h2
  | none =>
    cases hSY : synonyms s with
    | some v =>
      obtain ⟨kv, hmem, hv, hk⟩ := synonyms_mem s v hSY
      have := hSYcheck kv hmem (by
        rcases hk with hk | hk
        · rw [hk] at h; exact Or.inl h
        · rw [hk] at h; exact Or.inr h)
      rw [hv] at this
      refine ⟨this.1, ?_⟩
      have h2 := this.2
      unfold applyMaps at h2
      exact h2
    | none =>
      refine ⟨h, ?_⟩
      rw [hTA, hSY]

/-- C5: for every input string `x`, `canonical (canonical x) = canonical x`:
normalization followed by table-alias and synonym-dictionary substitution is
idempotent.  The characterwise NFD-decompose/strip-marks/lowercase stage `nf`
is abstract; the hypothesis records that it fixes the characters `[a-z0-9 ]`,
which is how the Unicode tables behave on them. -/
theorem canonical_idempotent (nf : Char → List Char)
    (hnf : ∀ c : Char, (isGoodChar c = true ∨ c = ' ') → nf c = [c]) (x : String) :
    canonical nf (canonical nf x) = canonical nf x := by
  have h := applyMaps_fix (normalize nf x) (normalize_NF nf x)
  show applyMaps (normalize nf (applyMaps (normalize nf x))) = applyMaps (normalize nf x)
  rw [normalize_of_NF nf hnf _ h.1, h.2]

/-- Witness for C5 at `nf c = [c]` and the concrete input `"Chi_TietChiTien"`. -/
theorem canonical_idempotent_witness :
    canonical (fun c => [c]) (canonical (fun c => [c]) "Chi_TietChiTien") =
      canonical (fun c => [c]) "Chi_TietChiTien" :=
  canonical_idempotent (fun c => [c]) (fun _ _ => rfl) "Chi_TietChiTien"


/-! ### External string metrics

`rapidfuzz`'s `fuzz.token_set_ratio`, `fuzz.partial_ratio` and `fuzz.ratio`
are third-party library functions; they are abstracted as the fields of
this bundle, together with the characterwise NFD stage `nf` of the
normalizer.  `tokenSet x y`, `partial x y` and `ratio x y` stand for the
three 0–100 scores. -/
structure StrMetrics where
  tokenSet : String → String → ℚ
  partialR : String → String → ℚ
  ratio : String → String → ℚ
  nf : Char → List Char

/-- The identity instantiation of the abstract metrics, used by witnesses. -/
def trivMetrics : StrMetrics :=
  ⟨fun _ _ => 0, fun _ _ => 0, fun _ _ => 0, fun c => [c]⟩

/-- Python `str.lower()`, modelled on the ASCII range (`Char.toLower`). -/
def pyLower (s : String) : String := ⟨s.data.map Char.toLower⟩

/-- Python `.replace(' ', '')`. -/
def stripSpaces (s : String) : String := ⟨s.data.filter (fun c => c ≠ ' ')⟩

/-! ### `matching/type_check.py` -/

/-- `CODE_KEYWORDS` of `matching/type_check.py`. -/
def CODE_KEYWORDS : List String := ["ma", "code", "id", "sohieu", "phieu", "voucher"]

/-- `TYPE_FAMILY` of `matching/type_check.py`, as an association list. -/
def TYPE_FAMILY : List (String × String) :=
  [("char", "str"), ("varchar", "str"), ("nvarchar", "str"), ("nchar", "str"),
   ("int", "int"), ("bigint", "int"), ("smallint", "int"),
   ("decimal", "num"), ("numeric", "num"), ("money", "num"), ("real", "num"), ("float", "num"),
   ("date", "dt"), ("datetime", "dt"), ("smalldatetime", "dt")]

/-- Python `str.startswith`, on character lists so that it reduces. -/
def pyStartsWith (s p : String) : Bool := p.data.isPrefixOf s.data

/-- Python `str.endswith`, on character lists so that it reduces. -/
def pyEndsWith (s p : String) : Bool := p.data.reverse.isPrefixOf s.data.reverse

/-- `is_code_column(col_name)`: the lowercased name starts or ends with one
of the code keywords. -/
def is_code_column (col_name : String) : Bool :=
  let name := pyLower col_name
  CODE_KEYWORDS.any (fun k => pyStartsWith name k || pyEndsWith name k)

/-- `TYPE_FAMILY.get(t, t)`. -/
def typeFamilyGet (t : String) : String :=
  match TYPE_FAMILY.lookup t with
  | some f => f
  | none => t

/-- The `string_types` tuple inside `same_type`. -/
def string_types : List String := ["char", "varchar", "nvarchar", "nchar"]

/-- The `int_types` tuple inside `same_type`. -/
def int_types : List String := ["int", "bigint", "smallint"]

/-- `same_type(atype, btype, col_a, col_b)` of `matching/type_check.py`. -/
def same_type (atype btype col_a col_b : String) : Bool :=
  let atype_lower := pyLower atype
  let btype_lower := pyLower btype
  if is_code_column col_a || is_code_column col_b then
    let a_is_string := string_types.contains atype_lower
    let a_is_int := int_types.contains atype_lower
    let b_is_string := string_types.contains btype_lower
    let b_is_int := int_types.contains btype_lower
    (a_is_string || a_is_int) && (b_is_string || b_is_int)
  else
    typeFamilyGet atype_lower == typeFamilyGet btype_lower

/-- Spec-side reading of "belongs to the string family": the type is one of
`char, varchar, nvarchar, nchar` (spec section 4.4). -/
def inStringFamily (t : String) : Prop := pyLower t ∈ string_types

/-- Spec-side reading of "belongs to the integer family": the type is one of
`int, bigint, smallint` (spec section 4.4). -/
def inIntFamily (t : String) : Prop := pyLower t ∈ int_types

/-! ### `utils/fuzzy.py` -/

/-- `FUZZY_THRESHOLD` of `utils/constants.py`. -/
def FUZZY_THRESHOLD : ℚ := 80

/-- `fuzzy_eq(a, b, th)` of `utils/fuzzy.py`: the maximum of the three
`rapidfuzz` metrics on canonical forms, compared against the threshold. -/
def fuzzy_eq (M : StrMetrics) (a b : String) (th : ℚ) : Bool × ℚ :=
  let ca := canonical M.nf a
  let cb := canonical M.nf b
  let score_token_set := M.tokenSet ca cb
  let score_partial := M.partialR ca cb
  let score_ratio := M.ratio (stripSpaces ca) (stripSpaces cb)
  let score := max (max score_token_set score_partial) score_ratio
  (decide (score ≥ th), score)

/-- The accumulating loop of `_get_abbreviation`: split at uppercase
letters, each split opening a new part. -/
def abbrLoop : List (List Char) → List Char → List Char → List (List Char) × List Char
  | parts, current, [] => (parts, current)
  | parts, current, c :: rest =>
    if isAsciiUpper c && !current.isEmpty then abbrLoop (parts ++ [current]) [c] rest
    else abbrLoop parts (current ++ [c]) rest

/-- `_get_abbreviation(text)` of `utils/fuzzy.py`. -/
def getAbbreviation (text : String) : String :=
  let pc := abbrLoop [] [] text.data
  let parts := if pc.2.isEmpty then pc.1 else pc.1 ++ [pc.2]
  ⟨(parts.filter (fun p => !p.isEmpty)).map (fun p => (p.headD ' ').toUpper)⟩

/-- `smart_token_match(a, b)` of `utils/fuzzy.py`. -/
def smart_token_match (M : StrMetrics) (a0 b0 : String) : ℚ :=
  let a := canonical M.nf a0
  let b := canonical M.nf b0
  if a = b then 100
  else
    let abbr_a := getAbbreviation a
    let abbr_b := getAbbreviation b
    if (2 ≤ abbr_a.length ∧ abbr_a = b) ∨ (2 ≤ abbr_b.length ∧ abbr_b = a) then 95
    else if abbr_a = abbr_b ∧ 2 ≤ abbr_a.length then 90
    else
      max (max (M.tokenSet a b) (M.partialR a b))
        (M.ratio (stripSpaces a) (stripSpaces b))


/-! ### C6: type compatibility -/

/-- C6 counterexample: `col_a = "mahang"` is code-like but `col_b = "xyz"`
is not, so "both names code-like" fails and the families of `varchar` and
`int` differ, yet `same_type` returns `True` — the code relaxes types when
at least ONE name is code-like, not when both are. -/
theorem same_type_claim_counterexample :
    ¬(is_code_column "mahang" = true ∧ is_code_column "xyz" = true) ∧
    typeFamilyGet (pyLower "varchar") ≠ typeFamilyGet (pyLower "int") ∧
    same_type "varchar" "int" "mahang" "xyz" = true := by decide

/-- C6 amended: if at least one of `cA`, `cB` matches the code-like naming
heuristic, `same_type tA tB cA cB` is `True` exactly when each of `tA`, `tB`
belongs to the string family or the integer family; otherwise it is `True`
exactly when `tA` and `tB` resolve to the same type family. -/
theorem same_type_characterization (tA tB cA cB : String) :
    same_type tA tB cA cB = true ↔
      (if is_code_column cA = true ∨ is_code_column cB = true
       then ((inStringFamily tA ∨ inIntFamily tA) ∧ (inStringFamily tB ∨ inIntFamily tB))
       else typeFamilyGet (pyLower tA) = typeFamilyGet (pyLower tB)) := by
  by_cases h : is_code_column cA = true ∨ is_code_column cB = true
  · rw [if_pos h]
    unfold same_type inStringFamily inIntFamily
    rw [if_pos (by simpa [Bool.or_eq_true] using h)]
    simp [List.elem_iff, Bool.and_eq_true, Bool.or_eq_true]
  · rw [if_neg h]
    unfold same_type
    rw [if_neg (by
      simp only [Bool.or_eq_true]
      exact h)]
    simp [beq_iff_eq]

/-! ### C8: the fuzzy scorer -/

/-- C8: `fuzzy_eq a b th` returns the pair `(s ≥ th, s)` where `s` is the
maximum of the token-set ratio and partial ratio of the canonical forms and
the full ratio of their space-stripped forms, and `s` lies in `[0, 100]`
whenever the three underlying `rapidfuzz` metrics do (their documented
range). -/
theorem fuzzy_eq_spec (M : StrMetrics)
    (ht : ∀ x y, 0 ≤ M.tokenSet x y ∧ M.tokenSet x y ≤ 100)
    (hp : ∀ x y, 0 ≤ M.partialR x y ∧ M.partialR x y ≤ 100)
    (hr : ∀ x y, 0 ≤ M.ratio x y ∧ M.ratio x y ≤ 100)
    (a b : String) (th : ℚ) :
    (fuzzy_eq M a b th).1 = decide ((fuzzy_eq M a b th).2 ≥ th) ∧
    (fuzzy_eq M a b th).2 =
      max (max (M.tokenSet (canonical M.nf a) (canonical M.nf b))
        (M.partialR (canonical M.nf a) (canonical M.nf b)))
        (M.ratio (stripSpaces (canonical M.nf a)) (stripSpaces (canonical M.nf b))) ∧
    0 ≤ (fuzzy_eq M a b th).2 ∧ (fuzzy_eq M a b th).2 ≤ 100 := by
  refine ⟨rfl, rfl, ?_, ?_⟩
  · exact le_trans (ht _ _).1 (le_trans (le_max_left _ _) (le_max_left _ _))
  · exact max_le (max_le (ht _ _).2 (hp _ _).2) (hr _ _).2

/-- Witness for C8 at the trivial metric instantiation and concrete
arguments. -/
theorem fuzzy_eq_spec_witness :
    (fuzzy_eq trivMetrics "DonGia" "Dongia" 80).1 =
      decide ((fuzzy_eq trivMetrics "DonGia" "Dongia" 80).2 ≥ 80) ∧
    (fuzzy_eq trivMetrics "DonGia" "Dongia" 80).2 =
      max (max (trivMetrics.tokenSet (canonical trivMetrics.nf "DonGia") (canonical trivMetrics.nf "Dongia"))
        (trivMetrics.partialR (canonical trivMetrics.nf "DonGia") (canonical trivMetrics.nf "Dongia")))
        (trivMetrics.ratio (stripSpaces (canonical trivMetrics.nf "DonGia"))
          (stripSpaces (canonical trivMetrics.nf "Dongia"))) ∧
    0 ≤ (fuzzy_eq trivMetrics "DonGia" "Dongia" 80).2 ∧
    (fuzzy_eq trivMetrics "DonGia" "Dongia" 80).2 ≤ 100 :=
  fuzzy_eq_spec trivMetrics (fun _ _ => ⟨le_refl 0, by norm_num [trivMetrics]⟩)
    (fun _ _ => ⟨le_refl 0, by norm_num [trivMetrics]⟩)
    (fun _ _ => ⟨le_refl 0, by norm_num [trivMetrics]⟩)
    "DonGia" "Dongia" 80


/-! ### Schema data model (`db/build_schema.py`) -/

/-- A foreign-key record as stored in a table's `fks` list. -/
structure FK where
  parent_tbl : String
  parent_cols : List String
  ref_tbl : String
  ref_cols : List String
deriving DecidableEq

/-- One table's metadata: the ordered `(name, type)` column list, the
primary-key column list and the foreign keys (the `original_name` field is
bookkeeping for reports and is not modelled). -/
structure TableMeta where
  cols : List (String × String)
  pk : List String
  fks : List FK
deriving DecidableEq

/-- A schema: an ordered association list from cleaned table name to its
metadata — the iteration order of the Python dict. -/
abbrev Schema := List (String × TableMeta)

/-- The column list of the `i`-th table of a schema. -/
def colsAt (schema : Schema) (i : ℕ) : List (String × String) :=
  match schema.get? i with
  | some e => e.2.cols
  | none => []

/-! ### `matching/table_matcher.py` -/

/-- The flexible type compatibility test inside `count_matching_columns`:
equal lowercased types, or both string types, or both number types, or
both date types. -/
def countTypeCompatible (atyp styp : String) : Bool :=
  pyLower atyp == pyLower styp ||
  (["char", "varchar", "nvarchar", "nchar"].contains (pyLower atyp) &&
   ["char", "varchar", "nvarchar", "nchar"].contains (pyLower styp)) ||
  (["int", "bigint", "smallint", "decimal", "numeric", "money", "real", "float"].contains (pyLower atyp) &&
   ["int", "bigint", "smallint", "decimal", "numeric", "money", "real", "float"].contains (pyLower styp)) ||
  (["date", "datetime", "smalldatetime"].contains (pyLower atyp) &&
   ["date", "datetime", "smalldatetime"].contains (pyLower styp))

/-- The name test inside `count_matching_columns`: canonical equality
(direct, space-stripped, or raw case-insensitive), or a smart-token score
at least `match_threshold`. -/
def countNameMatch (M : StrMetrics) (th : ℚ) (ac sc : String) : Bool :=
  let smart_score := smart_token_match M ac sc
  let exact_match := canonical M.nf ac == canonical M.nf sc ||
    stripSpaces (canonical M.nf ac) == stripSpaces (canonical M.nf sc) ||
    pyLower ac == pyLower sc
  exact_match || decide (smart_score ≥ th)

/-- Removal of the first occurrence of a chosen (index, column) entry,
modelling the `used_stu_cols` index bookkeeping of the Python loops. -/
def eraseEntry : List (ℕ × (String × String)) → (ℕ × (String × String)) →
    List (ℕ × (String × String))
  | [], _ => []
  | x :: t, e => if x = e then t else x :: eraseEntry t e

/-- The greedy loop of `count_matching_columns`: for each answer column in
order, consume the first not-yet-used student column (kept with its
original index) whose name matches and whose type is compatible. -/
def cmcGo (M : StrMetrics) (th : ℚ) :
    List (String × String) → List (ℕ × (String × String)) → ℕ
  | [], _ => 0
  | (ac, atyp) :: rest, avail =>
    match avail.find? (fun e => countNameMatch M th ac e.2.1 && countTypeCompatible atyp e.2.2) with
    | some e => 1 + cmcGo M th rest (eraseEntry avail e)
    | none => cmcGo M th rest avail

/-- `count_matching_columns(ans_cols, stu_cols, match_threshold=70)` of
`matching/table_matcher.py`. -/
def count_matching_columns (M : StrMetrics) (ans_cols stu_cols : List (String × String))
    (match_threshold : ℚ) : ℕ :=
  cmcGo M match_threshold ans_cols stu_cols.enum

/-- The column-overlap matrix entry `col_match_matrix[i, j]` of `phase1`
(`count_matching_columns` at its default threshold 70). -/
def p1ColOverlap (M : StrMetrics) (ansSchema stuSchema : Schema) (i j : ℕ) : ℕ :=
  count_matching_columns M (colsAt ansSchema i) (colsAt stuSchema j) 70

/-- The cost matrix entry of `phase1`: `-(col_match*1000 + sim)`,
overwritten with `1e6` when the pair has fewer than `min_cols = 1`
matching columns. -/
def phase1Cost (colM : ℕ → ℕ → ℕ) (sim : ℕ → ℕ → ℚ) (i j : ℕ) : ℚ :=
  if colM i j < 1 then 1000000 else -(colM i j * 1000 + sim i j)

/-- The per-assigned-pair acceptance decision of `phase1`: the pair is kept
only when its cost is below `1e5` (not penalized), and then only when
`(has_col_match and has_medium_similarity) or has_high_similarity`. -/
def phase1Decision (TBL_TH : ℚ) (colM : ℕ → ℕ → ℕ) (sim : ℕ → ℕ → ℚ)
    (stuName : String) (i j : ℕ) : Option String :=
  if phase1Cost colM sim i j < 100000 then
    if (1 ≤ colM i j ∧ sim i j ≥ mkRat 1 2) ∨ sim i j ≥ TBL_TH then some stuName
    else none
  else none

/-- The mapping built by `phase1` from the solver's assignment: one entry
per assigned pair (in assignment order), then `None` entries for the
answer tables not yet present. -/
def phase1Build (ansNames stuNames : List String) (colM : ℕ → ℕ → ℕ) (sim : ℕ → ℕ → ℚ)
    (TBL_TH : ℚ) (assign : List (ℕ × ℕ)) : List (String × Option String) :=
  let fromAssign := assign.filterMap (fun ij =>
    match ansNames.get? ij.1, stuNames.get? ij.2 with
    | some a, some s => some (a, phase1Decision TBL_TH colM sim s ij.1 ij.2)
    | _, _ => none)
  fromAssign ++ (ansNames.filter (fun a => fromAssign.lookup a = none)).map (fun a => (a, none))

/-- `phase1(ans_schema, stu_schema, TBL_TH)` of `matching/table_matcher.py`.
The embedding-derived cosine matrix `sim` and the SciPy
`linear_sum_assignment` result `assign` are parameters.  A mapping value
keeps the `student_table` field of the Python result dict (`none` for the
`None` mapping); the `student_original_name` field it carries alongside is
a lookup of the same student table and is not modelled. -/
def phase1 (M : StrMetrics) (ansSchema stuSchema : Schema) (sim : ℕ → ℕ → ℚ)
    (assign : List (ℕ × ℕ)) (TBL_TH : ℚ) : List (String × Option String) :=
  let ansNames := ansSchema.map Prod.fst
  let stuNames := stuSchema.map Prod.fst
  if ansNames.isEmpty || stuNames.isEmpty then
    ansNames.map (fun a => (a, none))
  else
    phase1Build ansNames stuNames (p1ColOverlap M ansSchema stuSchema) sim TBL_TH assign


/-! ### Association-list lookup helpers -/

theorem lookup_cons_self {β : Type} (a : String) (b : β) (t : List (String × β)) :
    ((a, b) :: t).lookup a = some b := by
  simp [List.lookup]

theorem lookup_cons_ne {β : Type} (a k : String) (b : β) (t : List (String × β)) (h : a ≠ k) :
    ((k, b) :: t).lookup a = t.lookup a := by
  have hf : (a == k) = false := beq_eq_false_iff_ne.mpr h
  simp [List.lookup, hf]

theorem lookup_append_some {β : Type} (l₁ l₂ : List (String × β)) (a : String) (b : β)
    (h : l₁.lookup a = some b) : (l₁ ++ l₂).lookup a = some b := by
  induction l₁ with
  | nil => simp [List.lookup] at h
  | cons kv t ih =>
    obtain ⟨k, v⟩ := kv
    by_cases he : a = k
    · rw [he] at h ⊢
      rw [lookup_cons_self] at h
      rw [List.cons_append, lookup_cons_self]
      exact h
    · rw [lookup_cons_ne a k v t he] at h
      rw [List.cons_append, lookup_cons_ne a k v _ he]
      exact ih h

theorem nodup_get?_inj (l : List String) (h : l.Nodup) (i j : ℕ) (a : String)
    (hi : l.get? i = some a) (hj : l.get? j = some a) : i = j := by
  obtain ⟨hli, hgi⟩ := List.get?_eq_some.mp hi
  obtain ⟨hlj, hgj⟩ := List.get?_eq_some.mp hj
  have heq : l.get ⟨i, hli⟩ = l.get ⟨j, hlj⟩ := hgi.trans hgj.symm
  have := h.get_inj_iff.mp heq
  simpa using congrArg Fin.val this

theorem fromAssign_lookup (ansNames stuNames : List String) (colM : ℕ → ℕ → ℕ)
    (sim : ℕ → ℕ → ℚ) (TBL_TH : ℚ) :
    ∀ (assign : List (ℕ × ℕ)), (assign.map Prod.fst).Nodup →
      (∀ p ∈ assign, p.1 < ansNames.length ∧ p.2 < stuNames.length) →
      ansNames.Nodup →
      ∀ (i j : ℕ) (a s : String), (i, j) ∈ assign →
        ansNames.get? i = some a → stuNames.get? j = some s →
        (assign.filterMap (fun ij =>
          match ansNames.get? ij.1, stuNames.get? ij.2 with
          | some a2, some s2 => some (a2, phase1Decision TBL_TH colM sim s2 ij.1 ij.2)
          | _, _ => none)).lookup a = some (phase1Decision TBL_TH colM sim s i j) := by
  intro assign
  induction assign with
  | nil =>
    intro _ _ _ i j a s hij
    cases hij
  | cons p t ih =>
    intro hnd hb hA i j a s hij ha hs
    obtain ⟨hp1, hp2⟩ := hb p (by simp)
    obtain ⟨a2, ha2⟩ : ∃ x, ansNames.get? p.1 = some x := by
      rw [List.get?_eq_get hp1]; exact ⟨_, rfl⟩
    obtain ⟨s2, hs2⟩ : ∃ x, stuNames.get? p.2 = some x := by
      rw [List.get?_eq_get hp2]; exact ⟨_, rfl⟩
    rw [List.filterMap_cons]
    simp only [ha2, hs2]
    rw [List.map_cons] at hnd
    obtain ⟨hnd1, hnd2⟩ := List.nodup_cons.mp hnd
    rcases List.mem_cons.mp hij with he | hmem
    · obtain ⟨rfl, rfl⟩ : p.1 = i ∧ p.2 = j := by rw [← he]; exact ⟨rfl, rfl⟩
      rw [ha] at ha2
      rw [hs] at hs2
      obtain rfl := Option.some.inj ha2
      obtain rfl := Option.some.inj hs2
      exact lookup_cons_self _ _ _
    · have hp1i : p.1 ≠ i := by
        intro he2
        exact hnd1 (he2 ▸ List.mem_map.mpr ⟨(i, j), hmem, rfl⟩)
      have hane : a ≠ a2 := by
        intro he2
        exact hp1i (nodup_get?_inj ansNames hA p.1 i a (he2 ▸ ha2) ha)
      rw [lookup_cons_ne a a2 _ _ hane]
      exact ih hnd2 (fun q hq => hb q (by simp [hq])) hA i j a s hmem ha hs


theorem phase1Cost_lt_iff (colM : ℕ → ℕ → ℕ) (sim : ℕ → ℕ → ℚ) (i j : ℕ)
    (hs : -1 ≤ sim i j) : phase1Cost colM sim i j < 100000 ↔ 1 ≤ colM i j := by
  unfold phase1Cost
  by_cases h : colM i j < 1
  · rw [if_pos h]
    constructor
    · intro hc; norm_num at hc
    · intro hc; omega
  · rw [if_neg h]
    constructor
    · intro _; omega
    · intro _
      have h0 : (0 : ℚ) ≤ (colM i j : ℚ) * 1000 := by positivity
      linarith

theorem phase1Decision_eq (TBL_TH : ℚ) (colM : ℕ → ℕ → ℕ) (sim : ℕ → ℕ → ℚ)
    (s : String) (i j : ℕ) (hs : -1 ≤ sim i j) :
    phase1Decision TBL_TH colM sim s i j =
      (if 1 ≤ colM i j ∧ (sim i j ≥ 1/2 ∨ sim i j ≥ TBL_TH) then some s else none) := by
  unfold phase1Decision
  rw [show (mkRat 1 2) = (1/2 : ℚ) by norm_num [Rat.mkRat_eq_div]]
  by_cases h1 : phase1Cost colM sim i j < 100000
  · rw [if_pos h1]
    have hcol := (phase1Cost_lt_iff colM sim i j hs).mp h1
    by_cases h2 : (1 ≤ colM i j ∧ sim i j ≥ 1/2) ∨ sim i j ≥ TBL_TH
    · rw [if_pos h2, if_pos ⟨hcol, by tauto⟩]
    · rw [if_neg h2, if_neg (by tauto)]
  · rw [if_neg h1]
    have hcol : ¬ 1 ≤ colM i j := fun hc => h1 ((phase1Cost_lt_iff colM sim i j hs).mpr hc)
    rw [if_neg (by tauto)]

/-- C1 (amended): for every `(answer, student)` pair chosen by the
bipartite assignment solver in `phase1`, the answer table is mapped to
that student table iff `column_overlap ≥ 1` AND (`similarity ≥ 0.5` OR
`similarity ≥ table_threshold`); in particular an assigned pair with
`column_overlap = 0` maps to `None` even when its similarity reaches the
table threshold, because zero-overlap pairs carry the `1e6` penalty cost
which the mapping loop rejects before the acceptance filter. -/
theorem phase1_acceptance (M : StrMetrics) (ansSchema stuSchema : Schema)
    (sim : ℕ → ℕ → ℚ) (assign : List (ℕ × ℕ)) (TBL_TH : ℚ)
    (hsim : ∀ i j, -1 ≤ sim i j)
    (hA : (ansSchema.map Prod.fst).Nodup)
    (hfst : (assign.map Prod.fst).Nodup)
    (hbound : ∀ p ∈ assign, p.1 < ansSchema.length ∧ p.2 < stuSchema.length)
    (i j : ℕ) (hij : (i, j) ∈ assign) (a s : String)
    (ha : (ansSchema.map Prod.fst).get? i = some a)
    (hs : (stuSchema.map Prod.fst).get? j = some s) :
    (phase1 M ansSchema stuSchema sim assign TBL_TH).lookup a =
      some (if 1 ≤ p1ColOverlap M ansSchema stuSchema i j ∧
              (sim i j ≥ 1/2 ∨ sim i j ≥ TBL_TH)
            then some s else none) := by
  have hiL : i < ansSchema.length := by
    have := (List.get?_eq_some.mp ha).1
    simpa using this
  have hjL : j < stuSchema.length := by
    have := (List.get?_eq_some.mp hs).1
    simpa using this
  have hAne : (ansSchema.map Prod.fst).isEmpty = false := by
    cases ansSchema with
    | nil => simp at hiL
    | cons x t => rfl
  have hSne : (stuSchema.map Prod.fst).isEmpty = false := by
    cases stuSchema with
    | nil => simp at hjL
    | cons x t => rfl
  have hlook := fromAssign_lookup (ansSchema.map Prod.fst) (stuSchema.map Prod.fst)
      (p1ColOverlap M ansSchema stuSchema) sim TBL_TH assign hfst
      (by intro p hp; simpa using hbound p hp) hA i j a s hij ha hs
  simp only [phase1, hAne, hSne, Bool.or_self, Bool.false_eq_true, if_false]
  simp only [phase1Build]
  rw [lookup_append_some _ _ a _ hlook, phase1Decision_eq _ _ _ _ _ _ (hsim i j)]


section ConcreteEvaluation

attribute [local semireducible] Rat.add Rat.mul Rat.sub

/-- Witness for C1 (amended) at a one-table pair whose single columns match
exactly, with similarity 1 and threshold 0.65. -/
theorem phase1_acceptance_witness :
    (phase1 trivMetrics [("a", ⟨[("x", "int")], [], []⟩)] [("b", ⟨[("x", "int")], [], []⟩)]
        (fun _ _ => 1) [(0, 0)] (mkRat 13 20)).lookup "a" =
      some (if 1 ≤ p1ColOverlap trivMetrics [("a", ⟨[("x", "int")], [], []⟩)]
                  [("b", ⟨[("x", "int")], [], []⟩)] 0 0 ∧
              ((fun _ _ => (1 : ℚ)) 0 0 ≥ 1/2 ∨ (fun _ _ => (1 : ℚ)) 0 0 ≥ mkRat 13 20)
            then some "b" else none) :=
  phase1_acceptance trivMetrics
    [("a", ⟨[("x", "int")], [], []⟩)] [("b", ⟨[("x", "int")], [], []⟩)]
    (fun _ _ => 1) [(0, 0)] (mkRat 13 20)
    (fun _ _ => by norm_num) (by decide) (by decide) (by decide)
    0 0 (by decide) "a" "b" (by decide) (by decide)

/-- C1 counterexample: the solver assigns the only pair `(0, 0)`; its
column overlap is `0` and its similarity `0.9` reaches the table threshold
`0.65`, so the claim's filter accepts it — but `phase1` maps the answer
table to `None`, because the zero-overlap pair was penalized to cost `1e6`
before the assignment and the mapping loop rejects penalized pairs. -/
theorem phase1_claim_counterexample :
    (phase1 trivMetrics [("a", ⟨[("x", "int")], [], []⟩)] [("b", ⟨[("y", "varchar")], [], []⟩)]
        (fun _ _ => mkRat 9 10) [(0, 0)] (mkRat 13 20)) = [("a", none)] ∧
    p1ColOverlap trivMetrics [("a", ⟨[("x", "int")], [], []⟩)]
      [("b", ⟨[("y", "varchar")], [], []⟩)] 0 0 = 0 ∧
    (mkRat 9 10 ≥ mkRat 13 20) := by decide

end ConcreteEvaluation


/-! ### Structural facts about the `phase1` mapping (for C4) -/

theorem lookup_eq_none_iff {β : Type} (l : List (String × β)) (a : String) :
    l.lookup a = none ↔ a ∉ l.map Prod.fst := by
  induction l with
  | nil => simp [List.lookup]
  | cons kv t ih =>
    obtain ⟨k, v⟩ := kv
    by_cases he : a = k
    · rw [he]
      rw [lookup_cons_self]
      simp
    · rw [lookup_cons_ne a k v t he, List.map_cons]
      rw [ih]
      simp [he]

theorem lookup_some_mem {β : Type} (l : List (String × β)) (a : String) (b : β)
    (h : l.lookup a = some b) : (a, b) ∈ l := by
  induction l with
  | nil => simp [List.lookup] at h
  | cons kv t ih =>
    obtain ⟨k, v⟩ := kv
    by_cases he : a = k
    · rw [he] at h ⊢
      rw [lookup_cons_self] at h
      obtain rfl := Option.some.inj h
      simp
    · rw [lookup_cons_ne a k v t he] at h
      exact List.mem_cons_of_mem _ (ih h)

theorem map_nodup_inj {α β : Type} [DecidableEq α] (l : List α) (f : α → β)
    (h : (l.map f).Nodup) : ∀ x ∈ l, ∀ y ∈ l, f x = f y → x = y := by
  induction l with
  | nil => intro x hx; cases hx
  | cons a t ih =>
    rw [List.map_cons, List.nodup_cons] at h
    intro x hx y hy hf
    rcases List.mem_cons.mp hx with rfl | hx2
    · rcases List.mem_cons.mp hy with rfl | hy2
      · rfl
      · exact absurd (hf ▸ List.mem_map.mpr ⟨y, hy2, rfl⟩) h.1
    · rcases List.mem_cons.mp hy with rfl | hy2
      · exact absurd (hf ▸ List.mem_map.mpr ⟨x, hx2, rfl⟩) h.1
      · exact ih h.2 x hx2 y hy2 hf

/-- Membership in the assignment part of the `phase1` mapping. -/
theorem fromAssign_mem_iff (ansNames stuNames : List String) (colM : ℕ → ℕ → ℕ)
    (sim : ℕ → ℕ → ℚ) (TBL_TH : ℚ) (assign : List (ℕ × ℕ))
    (hbound : ∀ p ∈ assign, p.1 < ansNames.length ∧ p.2 < stuNames.length)
    (e : String × Option String) :
    e ∈ (assign.filterMap (fun ij =>
        match ansNames.get? ij.1, stuNames.get? ij.2 with
        | some a2, some s2 => some (a2, phase1Decision TBL_TH colM sim s2 ij.1 ij.2)
        | _, _ => none)) ↔
      ∃ q ∈ assign, ∃ a2 s2, ansNames.get? q.1 = some a2 ∧ stuNames.get? q.2 = some s2 ∧
        e = (a2, phase1Decision TBL_TH colM sim s2 q.1 q.2) := by
  rw [List.mem_filterMap]
  constructor
  · rintro ⟨q, hq, hmatch⟩
    obtain ⟨a2, ha2⟩ : ∃ x, ansNames.get? q.1 = some x := by
      rw [List.get?_eq_get (hbound q hq).1]; exact ⟨_, rfl⟩
    obtain ⟨s2, hs2⟩ : ∃ x, stuNames.get? q.2 = some x := by
      rw [List.get?_eq_get (hbound q hq).2]; exact ⟨_, rfl⟩
    rw [ha2, hs2] at hmatch
    exact ⟨q, hq, a2, s2, ha2, hs2, (Option.some.inj hmatch).symm⟩
  · rintro ⟨q, hq, a2, s2, ha2, hs2, he⟩
    refine ⟨q, hq, ?_⟩
    rw [ha2, hs2, he]

/-- The keys contributed by the assignment part are exactly the answer
names at assigned row indices. -/
theorem fromAssign_keys_mem (ansNames stuNames : List String) (colM : ℕ → ℕ → ℕ)
    (sim : ℕ → ℕ → ℚ) (TBL_TH : ℚ) (assign : List (ℕ × ℕ))
    (hbound : ∀ p ∈ assign, p.1 < ansNames.length ∧ p.2 < stuNames.length)
    (a : String) :
    a ∈ (assign.filterMap (fun ij =>
        match ansNames.get? ij.1, stuNames.get? ij.2 with
        | some a2, some s2 => some (a2, phase1Decision TBL_TH colM sim s2 ij.1 ij.2)
        | _, _ => none)).map Prod.fst ↔
      ∃ q ∈ assign, ansNames.get? q.1 = some a := by
  rw [List.mem_map]
  constructor
  · rintro ⟨e, he, rfl⟩
    obtain ⟨q, hq, a2, s2, ha2, _, he2⟩ :=
      (fromAssign_mem_iff ansNames stuNames colM sim TBL_TH assign hbound e).mp he
    exact ⟨q, hq, by rw [he2]; exact ha2⟩
  · rintro ⟨q, hq, ha⟩
    obtain ⟨s2, hs2⟩ : ∃ x, stuNames.get? q.2 = some x := by
      rw [List.get?_eq_get (hbound q hq).2]; exact ⟨_, rfl⟩
    refine ⟨(a, phase1Decision TBL_TH colM sim s2 q.1 q.2), ?_, rfl⟩
    exact (fromAssign_mem_iff ansNames stuNames colM sim TBL_TH assign hbound _).mpr
      ⟨q, hq, a, s2, ha, hs2, rfl⟩


theorem fromAssign_keys_nodup (ansNames stuNames : List String) (colM : ℕ → ℕ → ℕ)
    (sim : ℕ → ℕ → ℚ) (TBL_TH : ℚ) :
    ∀ (assign : List (ℕ × ℕ)), ansNames.Nodup → (assign.map Prod.fst).Nodup →
      (∀ p ∈ assign, p.1 < ansNames.length ∧ p.2 < stuNames.length) →
      ((assign.filterMap (fun ij =>
          match ansNames.get? ij.1, stuNames.get? ij.2 with
          | some a2, some s2 => some (a2, phase1Decision TBL_TH colM sim s2 ij.1 ij.2)
          | _, _ => none)).map Prod.fst).Nodup := by
  intro assign
  induction assign with
  | nil => intro _ _ _; simp
  | cons p t ih =>
    intro hA hfst hbound
    rw [List.map_cons, List.nodup_cons] at hfst
    obtain ⟨a2, ha2⟩ : ∃ x, ansNames.get? p.1 = some x := by
      rw [List.get?_eq_get (hbound p (by simp)).1]; exact ⟨_, rfl⟩
    obtain ⟨s2, hs2⟩ : ∃ x, stuNames.get? p.2 = some x := by
      rw [List.get?_eq_get (hbound p (by simp)).2]; exact ⟨_, rfl⟩
    rw [List.filterMap_cons]
    simp only [ha2, hs2]
    rw [List.map_cons, List.nodup_cons]
    have hbt : ∀ q ∈ t, q.1 < ansNames.length ∧ q.2 < stuNames.length :=
      fun q hq => hbound q (by simp [hq])
    constructor
    · intro hmem
      obtain ⟨q, hq, haq⟩ :=
        (fromAssign_keys_mem ansNames stuNames colM sim TBL_TH t hbt a2).mp hmem
      have he : q.1 = p.1 := nodup_get?_inj ansNames hA q.1 p.1 a2 haq ha2
      exact hfst.1 (he ▸ List.mem_map.mpr ⟨q, hq, rfl⟩)
    · exact ih hA hfst.2 hbt

theorem phase1Decision_eq_some (TBL_TH : ℚ) (colM : ℕ → ℕ → ℕ) (sim : ℕ → ℕ → ℚ)
    (s2 s : String) (i j : ℕ) (h : phase1Decision TBL_TH colM sim s2 i j = some s) :
    s2 = s := by
  unfold phase1Decision at h
  split_ifs at h
  exact Option.some.inj h

/-- The `phase1` mapping has exactly the answer tables as its key list (up
to permutation, values possibly `None`). -/
theorem phase1_keys_perm (M : StrMetrics) (ansSchema stuSchema : Schema)
    (sim : ℕ → ℕ → ℚ) (assign : List (ℕ × ℕ)) (TBL_TH : ℚ)
    (hA : (ansSchema.map Prod.fst).Nodup)
    (hfst : (assign.map Prod.fst).Nodup)
    (hbound : ∀ p ∈ assign, p.1 < ansSchema.length ∧ p.2 < stuSchema.length) :
    ((phase1 M ansSchema stuSchema sim assign TBL_TH).map Prod.fst).Perm
      (ansSchema.map Prod.fst) := by
  have hbound2 : ∀ p ∈ assign,
      p.1 < (ansSchema.map Prod.fst).length ∧ p.2 < (stuSchema.map Prod.fst).length := by
    intro p hp; simpa using hbound p hp
  cases hcond : ((ansSchema.map Prod.fst).isEmpty || (stuSchema.map Prod.fst).isEmpty) with
  | true =>
    simp only [phase1, hcond, if_true]
    rw [List.map_map]
    have h0 : (Prod.fst ∘ fun a => ((a, none) : String × Option String)) = id := rfl
    rw [h0, List.map_id]
  | false =>
    simp only [phase1, hcond, Bool.false_eq_true, if_false, phase1Build]
    apply (List.perm_ext_iff_of_nodup ?_ hA).mpr
    · intro a
      rw [List.map_append, List.mem_append]
      constructor
      · intro h
        rcases h with h | h
        · obtain ⟨q, _, haq⟩ :=
            (fromAssign_keys_mem _ _ _ sim TBL_TH assign hbound2 a).mp h
          exact List.get?_mem haq
        · rw [List.map_map] at h
          have h0 : (Prod.fst ∘ fun a => ((a, none) : String × Option String)) = id := rfl
          rw [h0, List.map_id] at h
          exact List.mem_of_mem_filter h
      · intro h
        cases hlook : (assign.filterMap (fun ij =>
            match (ansSchema.map Prod.fst).get? ij.1, (stuSchema.map Prod.fst).get? ij.2 with
            | some a2, some s2 => some (a2, phase1Decision TBL_TH
                (p1ColOverlap M ansSchema stuSchema) sim s2 ij.1 ij.2)
            | _, _ => none)).lookup a with
        | some b =>
          left
          exact List.mem_map.mpr ⟨(a, b), lookup_some_mem _ a b hlook, rfl⟩
        | none =>
          right
          rw [List.map_map]
          have h0 : (Prod.fst ∘ fun a => ((a, none) : String × Option String)) = id := rfl
          rw [h0, List.map_id, List.mem_filter]
          exact ⟨h, by rw [hlook]; simp⟩
    · rw [List.map_append]
      rw [List.nodup_append]
      refine ⟨fromAssign_keys_nodup _ _ _ sim TBL_TH assign hA hfst hbound2, ?_, ?_⟩
      · rw [List.map_map]
        have h0 : (Prod.fst ∘ fun a => ((a, none) : String × Option String)) = id := rfl
        rw [h0, List.map_id]
        exact hA.filter _
      · intro a ha1 ha2
        rw [List.map_map] at ha2
        have h0 : (Prod.fst ∘ fun a => ((a, none) : String × Option String)) = id := rfl
        rw [h0, List.map_id] at ha2
        have := (List.mem_filter.mp ha2).2
        rw [decide_eq_true_eq] at this
        exact ((lookup_eq_none_iff _ a).mp this) ha1


/-- Two distinct answer tables are never mapped to the same student table
by `phase1`. -/
theorem phase1_mapsto_inj (M : StrMetrics) (ansSchema stuSchema : Schema)
    (sim : ℕ → ℕ → ℚ) (assign : List (ℕ × ℕ)) (TBL_TH : ℚ)
    (hS : (stuSchema.map Prod.fst).Nodup)
    (hsnd : (assign.map Prod.snd).Nodup)
    (hbound : ∀ p ∈ assign, p.1 < ansSchema.length ∧ p.2 < stuSchema.length)
    (a1 a2 s : String)
    (h1 : (phase1 M ansSchema stuSchema sim assign TBL_TH).lookup a1 = some (some s))
    (h2 : (phase1 M ansSchema stuSchema sim assign TBL_TH).lookup a2 = some (some s)) :
    a1 = a2 := by
  have hbound2 : ∀ p ∈ assign,
      p.1 < (ansSchema.map Prod.fst).length ∧ p.2 < (stuSchema.map Prod.fst).length := by
    intro p hp; simpa using hbound p hp
  have hFrom : ∀ a : String,
      (phase1 M ansSchema stuSchema sim assign TBL_TH).lookup a = some (some s) →
      ∃ q ∈ assign, (ansSchema.map Prod.fst).get? q.1 = some a ∧
        (stuSchema.map Prod.fst).get? q.2 = some s := by
    intro a h
    cases hcond : ((ansSchema.map Prod.fst).isEmpty || (stuSchema.map Prod.fst).isEmpty) with
    | true =>
      rw [phase1] at h
      simp only [hcond, if_true] at h
      have hmem := lookup_some_mem _ a (some s) h
      obtain ⟨x, _, hx⟩ := List.mem_map.mp hmem
      cases hx
    | false =>
      rw [phase1] at h
      simp only [hcond, Bool.false_eq_true, if_false, phase1Build] at h
      have hmem := lookup_some_mem _ a (some s) h
      rw [List.mem_append] at hmem
      rcases hmem with hmem | hmem
      · obtain ⟨q, hq, a3, s3, ha3, hs3, he⟩ :=
          (fromAssign_mem_iff _ _ _ sim TBL_TH assign hbound2 _).mp hmem
        obtain ⟨he1, he2⟩ := Prod.mk.injEq _ _ _ _ ▸ he
        refine ⟨q, hq, ?_, ?_⟩
        · rw [← he1] at ha3; exact ha3
        · have := phase1Decision_eq_some _ _ _ _ _ _ _ he2.symm
          rw [this] at hs3; exact hs3
      · obtain ⟨x, _, hx⟩ := List.mem_map.mp hmem
        cases hx
  obtain ⟨q1, hq1, ha1, hs1⟩ := hFrom a1 h1
  obtain ⟨q2, hq2, ha2, hs2⟩ := hFrom a2 h2
  have hj : q1.2 = q2.2 := nodup_get?_inj _ hS q1.2 q2.2 s hs1 hs2
  have hq : q1 = q2 := map_nodup_inj assign Prod.snd hsnd q1 hq1 q2 hq2 hj
  rw [hq] at ha1
  rw [ha2] at ha1
  exact (Option.some.inj ha1).symm


/-! ### `matching/column_matcher.py` -/

/-- One row of the `phase2_one` result,
`[ans_tbl, cA, tA, stu_tbl, cS, tS, score, ok]`.  Cells that Python fills
with `None` during the matching loop are `none`; the em-dash placeholder
of unmatched rows stays the string `"—"`. -/
structure ColRow where
  t1 : String
  c1 : String
  ty1 : String
  t2 : Option String
  c2 : Option String
  ty2 : Option String
  score : Option ℚ
  ok : Option Bool
deriving DecidableEq

/-- The column list of a table looked up by name, `schema[tbl]['cols']`
(empty when the table is absent — the Python callers only pass present
tables). -/
def schemaCols (schema : Schema) (tbl : String) : List (String × String) :=
  match schema.lookup tbl with
  | some m => m.cols
  | none => []

/-- The exact-match test of step 1 of `phase2_one`: canonical equality,
space-stripped canonical equality, or raw case-insensitive equality. -/
def exactColMatch (nf : Char → List Char) (cA cS : String) : Bool :=
  canonical nf cA == canonical nf cS ||
  stripSpaces (canonical nf cA) == stripSpaces (canonical nf cS) ||
  pyLower cA == pyLower cS

/-- Step 1 of `phase2_one`: for each answer column in order, bind the first
unused student column with an exact name match, scored 1.0 with
`same_type`; otherwise emit a placeholder row with `None` cells.  Returns
the rows and the remaining (unbound) student columns with their indices —
Python's `matched_idx_stu` complement, in index order. -/
def p2Step1 (nf : Char → List Char) (ansTbl stuTbl : String) :
    List (String × String) → List (ℕ × (String × String)) →
    List ColRow × List (ℕ × (String × String))
  | [], avail => ([], avail)
  | (cA, tA) :: rest, avail =>
    match avail.find? (fun e => exactColMatch nf cA e.2.1) with
    | some e =>
      let r := p2Step1 nf ansTbl stuTbl rest (eraseEntry avail e)
      (⟨ansTbl, cA, tA, some stuTbl, some e.2.1, some e.2.2, some 1,
        some (same_type tA e.2.2 cA e.2.1)⟩ :: r.1, r.2)
    | none =>
      let r := p2Step1 nf ansTbl stuTbl rest avail
      (⟨ansTbl, cA, tA, none, none, none, none, none⟩ :: r.1, r.2)

/-- One iteration of the step-2 loop of `phase2_one` for an assigned pair
`(i, j)` into the remainder lists `needA`/`needB`: skip non-positive
cosines, re-score the ambiguous band `[0.5, 0.8]` with the semantic check
`sem`, accept at `score ≥ 0.75` under `same_type`, and write the new row at
the position `rows.index(needA[i])`.  Out-of-range assignment indices
(which the solver never produces) leave the rows unchanged. -/
def p2Step2Update (sem : String → String → String → String → ℚ)
    (ansTbl stuTbl : String) (needA : List ColRow) (needB : List (ℕ × (String × String)))
    (colSim : ℕ → ℕ → ℚ) (rows : List ColRow) (ij : ℕ × ℕ) : List ColRow :=
  match needA.get? ij.1, needB.get? ij.2 with
  | some ra, some e =>
    if colSim ij.1 ij.2 ≤ 0 then rows
    else
      let cosine_score := colSim ij.1 ij.2
      let final_score :=
        if mkRat 1 2 ≤ cosine_score ∧ cosine_score ≤ mkRat 4 5 then
          max cosine_score (sem ra.c1 ra.ty1 e.2.1 e.2.2)
        else cosine_score
      let ok := decide (final_score ≥ mkRat 3 4) && same_type ra.ty1 e.2.2 ra.c1 e.2.1
      rows.set (rows.indexOf ra)
        ⟨ansTbl, ra.c1, ra.ty1, some stuTbl, some e.2.1, some e.2.2, some final_score, some ok⟩
  | _, _ => rows

/-- Step 3 of `phase2_one`: any row still unscored becomes an unmatched
row with the em-dash placeholders, score 0.0 and `type_compatible=False`. -/
def p2Step3 (ansTbl stuTbl : String) (rows : List ColRow) : List ColRow :=
  rows.map (fun r =>
    if r.score = none then ⟨ansTbl, r.c1, r.ty1, some stuTbl, some "—", some "—", some 0, some false⟩
    else r)

/-- `phase2_one(ans_tbl, stu_tbl, ans_schema, stu_schema)` of
`matching/column_matcher.py`.  The cosine matrix over the step-2
remainders (`colSim`), the SciPy assignment over it (`assign2`) and the
Gemini semantic re-scorer (`sem`) are parameters. -/
def phase2_one (nf : Char → List Char) (sem : String → String → String → String → ℚ)
    (colSim : ℕ → ℕ → ℚ) (assign2 : List (ℕ × ℕ)) (ansTbl : String)
    (stuTbl : Option String) (ansSchema stuSchema : Schema) : List ColRow :=
  let ans_cols := schemaCols ansSchema ansTbl
  match stuTbl with
  | none =>
    ans_cols.map (fun cd => ⟨ansTbl, cd.1, cd.2, some "—", some "—", some "—", some 0, some false⟩)
  | some st =>
    let stu_cols := schemaCols stuSchema st
    if ans_cols.isEmpty || stu_cols.isEmpty then
      ans_cols.map (fun cd => ⟨ansTbl, cd.1, cd.2, some st, some "—", some "—", some 0, some false⟩)
    else
      let s1 := p2Step1 nf ansTbl st ans_cols stu_cols.enum
      let needA := s1.1.filter (fun r => r.score = none)
      let needB := s1.2
      let rows2 :=
        if !needA.isEmpty && !needB.isEmpty then
          assign2.foldl (p2Step2Update sem ansTbl st needA needB colSim) s1.1
        else s1.1
      p2Step3 ansTbl st rows2


/-! ### C7: the column matcher contract -/

/-- The answer-side projection of a result row: its answer column name and
type. -/
def projCT (r : ColRow) : String × String := (r.c1, r.ty1)

theorem p2Step1_proj (nf : Char → List Char) (ansTbl stuTbl : String) :
    ∀ (cols : List (String × String)) (avail : List (ℕ × (String × String))),
      ((p2Step1 nf ansTbl stuTbl cols avail).1).map projCT = cols
  | [], _ => rfl
  | (cA, tA) :: rest, avail => by
    rw [p2Step1]
    cases avail.find? (fun e => exactColMatch nf cA e.2.1) with
    | some e =>
      simp only [List.map_cons, projCT]
      rw [p2Step1_proj nf ansTbl stuTbl rest (eraseEntry avail e)]
    | none =>
      simp only [List.map_cons, projCT]
      rw [p2Step1_proj nf ansTbl stuTbl rest avail]

theorem map_proj_set {α : Type} (f : ColRow → α) :
    ∀ (rows : List ColRow) (k : ℕ) (r2 : ColRow),
      (∀ r0, rows.get? k = some r0 → f r2 = f r0) →
      (rows.set k r2).map f = rows.map f
  | [], _, _, _ => rfl
  | r :: t, 0, r2, h => by
    rw [List.set_cons_zero, List.map_cons, List.map_cons, h r rfl]
  | r :: t, k + 1, r2, h => by
    rw [List.set_cons_succ, List.map_cons, List.map_cons,
      map_proj_set f t k r2 (fun r0 h0 => h r0 h0)]

theorem p2Step2Update_proj (sem : String → String → String → String → ℚ)
    (ansTbl stuTbl : String) (needA : List ColRow) (needB : List (ℕ × (String × String)))
    (colSim : ℕ → ℕ → ℚ) (rows : List ColRow) (ij : ℕ × ℕ) :
    (p2Step2Update sem ansTbl stuTbl needA needB colSim rows ij).map projCT =
      rows.map projCT := by
  unfold p2Step2Update
  cases hra : needA.get? ij.1 with
  | none => rfl
  | some ra =>
    cases he : needB.get? ij.2 with
    | none => rfl
    | some e =>
      dsimp only
      by_cases hc : colSim ij.1 ij.2 ≤ 0
      · rw [if_pos hc]
      · rw [if_neg hc]
        apply map_proj_set
        intro r0 h0
        have hlt : rows.indexOf ra < rows.length := by
          by_contra hge
          rw [List.get?_eq_none.mpr (by omega)] at h0
          cases h0
        have hmem : ra ∈ rows := List.indexOf_lt_length.mp hlt
        have : rows.get ⟨rows.indexOf ra, hlt⟩ = ra := List.indexOf_get hlt
        rw [List.get?_eq_get hlt, this] at h0
        obtain rfl := Option.some.inj h0
        rfl

theorem p2fold_proj (sem : String → String → String → String → ℚ)
    (ansTbl stuTbl : String) (needA : List ColRow) (needB : List (ℕ × (String × String)))
    (colSim : ℕ → ℕ → ℚ) :
    ∀ (assign2 : List (ℕ × ℕ)) (rows : List ColRow),
      (assign2.foldl (p2Step2Update sem ansTbl stuTbl needA needB colSim) rows).map projCT =
        rows.map projCT
  | [], rows => rfl
  | ij :: t, rows => by
    rw [List.foldl_cons, p2fold_proj sem ansTbl stuTbl needA needB colSim t _,
      p2Step2Update_proj sem ansTbl stuTbl needA needB colSim rows ij]

theorem p2Step3_proj (ansTbl stuTbl : String) (rows : List ColRow) :
    (p2Step3 ansTbl stuTbl rows).map projCT = rows.map projCT := by
  unfold p2Step3
  rw [List.map_map]
  apply List.map_congr_left
  intro r _
  by_cases h : r.score = none
  · simp only [Function.comp_apply, if_pos h, projCT]
  · simp only [Function.comp_apply, if_neg h]

/-- C7: `phase2_one` always returns exactly one record per answer column,
in the answer table's source column order (its rows project to the answer
column list); and whenever the student table is `None` or either table has
zero columns, every returned record is unmatched with score 0.0 and
`type_compatible = False`. -/
theorem phase2_one_contract (nf : Char → List Char)
    (sem : String → String → String → String → ℚ) (colSim : ℕ → ℕ → ℚ)
    (assign2 : List (ℕ × ℕ)) (ansTbl : String) (stuTbl : Option String)
    (ansSchema stuSchema : Schema) :
    ((phase2_one nf sem colSim assign2 ansTbl stuTbl ansSchema stuSchema).map projCT =
      schemaCols ansSchema ansTbl) ∧
    ((stuTbl = none ∨ ∃ st, stuTbl = some st ∧
        (schemaCols ansSchema ansTbl = [] ∨ schemaCols stuSchema st = [])) →
      ∀ r ∈ phase2_one nf sem colSim assign2 ansTbl stuTbl ansSchema stuSchema,
        r.score = some 0 ∧ r.ok = some false) := by
  constructor
  · cases stuTbl with
    | none =>
      simp only [phase2_one, List.map_map]
      have h0 : (projCT ∘ fun cd : String × String =>
          (⟨ansTbl, cd.1, cd.2, some "—", some "—", some "—", some 0, some false⟩ : ColRow)) =
          id := rfl
      rw [h0, List.map_id]
    | some st =>
      by_cases hempty : (schemaCols ansSchema ansTbl).isEmpty ||
          (schemaCols stuSchema st).isEmpty
      · simp only [phase2_one, hempty, if_true, List.map_map]
        have h0 : (projCT ∘ fun cd : String × String =>
            (⟨ansTbl, cd.1, cd.2, some st, some "—", some "—", some 0, some false⟩ : ColRow)) =
            id := rfl
        rw [h0, List.map_id]
      · rw [show (phase2_one nf sem colSim assign2 ansTbl (some st) ansSchema stuSchema) =
            (let s1 := p2Step1 nf ansTbl st (schemaCols ansSchema ansTbl)
              (schemaCols stuSchema st).enum
            let needA := s1.1.filter (fun r => r.score = none)
            let needB := s1.2
            let rows2 :=
              if !needA.isEmpty && !needB.isEmpty then
                assign2.foldl (p2Step2Update sem ansTbl st needA needB colSim) s1.1
              else s1.1
            p2Step3 ansTbl st rows2) from by
          simp only [phase2_one, hempty, Bool.false_eq_true, if_false]]
        simp only
        by_cases hne : (!((p2Step1 nf ansTbl st (schemaCols ansSchema ansTbl)
              (schemaCols stuSchema st).enum).1.filter (fun r => r.score = none)).isEmpty &&
            !(p2Step1 nf ansTbl st (schemaCols ansSchema ansTbl)
              (schemaCols stuSchema st).enum).2.isEmpty) = true
        · rw [if_pos hne, p2Step3_proj, p2fold_proj, p2Step1_proj]
        · rw [if_neg hne, p2Step3_proj, p2Step1_proj]
  · intro hcase r hr
    rcases hcase with hnone | ⟨st, hst, hzero⟩
    · rw [hnone] at hr
      simp only [phase2_one] at hr
      obtain ⟨cd, _, rfl⟩ := List.mem_map.mp hr
      exact ⟨rfl, rfl⟩
    · rw [hst] at hr
      have hempty : ((schemaCols ansSchema ansTbl).isEmpty ||
          (schemaCols stuSchema st).isEmpty) = true := by
        rcases hzero with h | h <;> simp [h]
      simp only [phase2_one, hempty, if_true] at hr
      obtain ⟨cd, _, rfl⟩ := List.mem_map.mp hr
      exact ⟨rfl, rfl⟩

/-- Witness for C7 at a concrete one-column table with no student table. -/
theorem phase2_one_contract_witness :
    ((phase2_one (fun c => [c]) (fun _ _ _ _ => 0) (fun _ _ => 0) []
        "t" none [("t", ⟨[("x", "int")], [], []⟩)] []).map projCT =
      schemaCols [("t", ⟨[("x", "int")], [], []⟩)] "t") ∧
    ∀ r ∈ phase2_one (fun c => [c]) (fun _ _ _ _ => 0) (fun _ _ => 0) []
        "t" none [("t", ⟨[("x", "int")], [], []⟩)] [],
      r.score = some 0 ∧ r.ok = some false :=
  ⟨(phase2_one_contract (fun c => [c]) (fun _ _ _ _ => 0) (fun _ _ => 0) []
      "t" none [("t", ⟨[("x", "int")], [], []⟩)] []).1,
   (phase2_one_contract (fun c => [c]) (fun _ _ _ _ => 0) (fun _ _ => 0) []
      "t" none [("t", ⟨[("x", "int")], [], []⟩)] []).2 (Or.inl rfl)⟩


/-! ### C4: injectivity of the matchers -/

/-- The student column bound by a result row, when the row records a real
binding (a positive score on real student cells). -/
def boundStu (r : ColRow) : Option (String × String) :=
  match r.score, r.c2, r.ty2 with
  | some q, some c, some t => if q = 0 then none else some (c, t)
  | _, _, _ => none

theorem perm_cons_eraseEntry :
    ∀ (l : List (ℕ × (String × String))) (e : ℕ × (String × String)), e ∈ l →
      l.Perm (e :: eraseEntry l e)
  | [], _, h => absurd h (List.not_mem_nil _)
  | x :: t, e, h => by
    rw [eraseEntry]
    by_cases hx : x = e
    · rw [if_pos hx, hx]
    · rw [if_neg hx]
      have hmem : e ∈ t := by
        rcases List.mem_cons.mp h with h2 | h2
        · exact absurd h2.symm hx
        · exact h2
      exact ((perm_cons_eraseEntry t e hmem).cons x).trans (List.Perm.swap e x _)

theorem p2Step1_bound (nf : Char → List Char) (ansTbl stuTbl : String) :
    ∀ (cols : List (String × String)) (avail : List (ℕ × (String × String))),
      (((p2Step1 nf ansTbl stuTbl cols avail).1.filterMap boundStu :
          Multiset (String × String))) +
        ↑(((p2Step1 nf ansTbl stuTbl cols avail).2).map Prod.snd) =
        ↑(avail.map Prod.snd)
  | [], avail => by simp [p2Step1]
  | (cA, tA) :: rest, avail => by
    rw [p2Step1]
    cases hfind : avail.find? (fun e => exactColMatch nf cA e.2.1) with
    | some e =>
      have hmem : e ∈ avail := List.mem_of_find?_eq_some hfind
      have hperm : avail.Perm (e :: eraseEntry avail e) := perm_cons_eraseEntry avail e hmem
      have ih := p2Step1_bound nf ansTbl stuTbl rest (eraseEntry avail e)
      dsimp only
      rw [List.filterMap_cons]
      have hb : boundStu ⟨ansTbl, cA, tA, some stuTbl, some e.2.1, some e.2.2, some 1,
          some (same_type tA e.2.2 cA e.2.1)⟩ = some e.2 := by
        dsimp only [boundStu]
        rw [if_neg (by norm_num)]
      rw [hb, ← Multiset.cons_coe, Multiset.cons_add, ih, Multiset.cons_coe]
      exact Multiset.coe_eq_coe.mpr (by simpa using (hperm.map Prod.snd).symm)
    | none =>
      dsimp only
      rw [List.filterMap_cons]
      have hb : boundStu ⟨ansTbl, cA, tA, none, none, none, none, none⟩ = none := rfl
      rw [hb]
      exact p2Step1_bound nf ansTbl stuTbl rest avail

theorem bound_cons_le (f : ColRow → Option (String × String)) (r : ColRow) (t : List ColRow) :
    (↑(t.filterMap f) : Multiset (String × String)) ≤ ↑((r :: t).filterMap f) :=
  ((List.sublist_cons_self r t).filterMap f).subperm

theorem bound_set_le :
    ∀ (rows : List ColRow) (k : ℕ) (r2 : ColRow),
      (((rows.set k r2).filterMap boundStu) : Multiset (String × String)) ≤
        ↑(rows.filterMap boundStu) + ↑((boundStu r2).toList)
  | [], _, _ => by simp
  | r :: t, 0, r2 => by
    rw [List.set_cons_zero, List.filterMap_cons]
    cases hb2 : boundStu r2 with
    | none =>
      dsimp only
      calc (↑(t.filterMap boundStu) : Multiset (String × String))
          ≤ ↑((r :: t).filterMap boundStu) := bound_cons_le boundStu r t
        _ ≤ ↑((r :: t).filterMap boundStu) + ↑(Option.toList (α := String × String) none) := by
            simp
    | some b2 =>
      dsimp only
      rw [← Multiset.cons_coe]
      have h2 : (↑((r :: t).filterMap boundStu) : Multiset (String × String)) +
          ↑((some b2).toList) = b2 ::ₘ ↑((r :: t).filterMap boundStu) := by
        simp only [Option.toList_some]
        rw [add_comm, ← Multiset.cons_coe, Multiset.cons_add]
        simp
      rw [h2]
      exact Multiset.cons_le_cons b2 (bound_cons_le boundStu r t)
  | r :: t, k + 1, r2 => by
    rw [List.set_cons_succ, List.filterMap_cons, List.filterMap_cons]
    cases hb : boundStu r with
    | none => exact bound_set_le t k r2
    | some b =>
      dsimp only
      rw [← Multiset.cons_coe, ← Multiset.cons_coe, Multiset.cons_add]
      exact Multiset.cons_le_cons b (bound_set_le t k r2)


theorem p2Step2Update_bound (sem : String → String → String → String → ℚ)
    (ansTbl stuTbl : String) (needA : List ColRow) (needB : List (ℕ × (String × String)))
    (colSim : ℕ → ℕ → ℚ) (rows : List ColRow) (ij : ℕ × ℕ) :
    (((p2Step2Update sem ansTbl stuTbl needA needB colSim rows ij).filterMap boundStu) :
        Multiset (String × String)) ≤
      ↑(rows.filterMap boundStu) + ↑(((needB.get? ij.2).map Prod.snd).toList) := by
  unfold p2Step2Update
  cases hra : needA.get? ij.1 with
  | none => exact Multiset.le_add_right _ _
  | some ra =>
    cases he : needB.get? ij.2 with
    | none => exact Multiset.le_add_right _ _
    | some e =>
      dsimp only
      by_cases hc : colSim ij.1 ij.2 ≤ 0
      · rw [if_pos hc]
        exact Multiset.le_add_right _ _
      · rw [if_neg hc]
        refine le_trans (bound_set_le rows _ _) ?_
        apply add_le_add_left
        have hb : boundStu ⟨ansTbl, ra.c1, ra.ty1, some stuTbl, some e.2.1, some e.2.2,
            some (if mkRat 1 2 ≤ colSim ij.1 ij.2 ∧ colSim ij.1 ij.2 ≤ mkRat 4 5 then
              max (colSim ij.1 ij.2) (sem ra.c1 ra.ty1 e.2.1 e.2.2) else colSim ij.1 ij.2),
            some (decide ((if mkRat 1 2 ≤ colSim ij.1 ij.2 ∧ colSim ij.1 ij.2 ≤ mkRat 4 5 then
                max (colSim ij.1 ij.2) (sem ra.c1 ra.ty1 e.2.1 e.2.2)
              else colSim ij.1 ij.2) ≥ mkRat 3 4) &&
              same_type ra.ty1 e.2.2 ra.c1 e.2.1)⟩ =
            if (if mkRat 1 2 ≤ colSim ij.1 ij.2 ∧ colSim ij.1 ij.2 ≤ mkRat 4 5 then
                max (colSim ij.1 ij.2) (sem ra.c1 ra.ty1 e.2.1 e.2.2)
              else colSim ij.1 ij.2) = 0 then none else some (e.2.1, e.2.2) := by
          dsimp only [boundStu]
        rw [hb]
        by_cases hz : (if mkRat 1 2 ≤ colSim ij.1 ij.2 ∧ colSim ij.1 ij.2 ≤ mkRat 4 5 then
            max (colSim ij.1 ij.2) (sem ra.c1 ra.ty1 e.2.1 e.2.2)
          else colSim ij.1 ij.2) = 0
        · rw [if_pos hz]
          simp
        · rw [if_neg hz]
          simp

theorem p2fold_bound (sem : String → String → String → String → ℚ)
    (ansTbl stuTbl : String) (needA : List ColRow) (needB : List (ℕ × (String × String)))
    (colSim : ℕ → ℕ → ℚ) :
    ∀ (assign2 : List (ℕ × ℕ)) (rows : List ColRow),
      (((assign2.foldl (p2Step2Update sem ansTbl stuTbl needA needB colSim) rows).filterMap
          boundStu) : Multiset (String × String)) ≤
        ↑(rows.filterMap boundStu) +
          ↑(assign2.filterMap (fun ij => ((needB.get? ij.2).map Prod.snd)))
  | [], rows => by simp
  | ij :: t, rows => by
    rw [List.foldl_cons, List.filterMap_cons]
    have ih := p2fold_bound sem ansTbl stuTbl needA needB colSim t
      (p2Step2Update sem ansTbl stuTbl needA needB colSim rows ij)
    have hupd := p2Step2Update_bound sem ansTbl stuTbl needA needB colSim rows ij
    cases he : needB.get? ij.2 with
    | none =>
      rw [he] at hupd
      rw [Option.map_none', Option.toList_none] at hupd
      refine le_trans ih (add_le_add_right (le_trans hupd (le_of_eq ?_)) _)
      simp
    | some e =>
      rw [he] at hupd
      rw [Option.map_some', Option.toList_some] at hupd
      refine le_trans ih (le_trans (add_le_add_right hupd _) (le_of_eq ?_))
      rw [add_assoc]
      congr 1


theorem sel_sublist_of_sorted {α : Type} :
    ∀ (js : List ℕ), js.Pairwise (· < ·) → ∀ (l : List α),
      (js.filterMap (fun j => l.get? j)).Sublist l
  | [], _, l => List.nil_sublist l
  | j :: t, hp, l => by
    rw [List.filterMap_cons]
    rw [List.pairwise_cons] at hp
    cases hj : l.get? j with
    | none =>
      have hlen : l.length ≤ j := by
        by_contra h
        rw [List.get?_eq_get (by omega)] at hj
        cases hj
      have hnil : t.filterMap (fun k => l.get? k) = [] := by
        rw [List.filterMap_eq_nil]
        intro k hk
        exact List.get?_eq_none.mpr (by have := hp.1 k hk; omega)
      rw [hnil]
      exact List.nil_sublist l
    | some x =>
      have hjlen : j < l.length := by
        by_contra h
        rw [List.get?_eq_none.mpr (by omega)] at hj
        cases hj
      have hshift : t.filterMap (fun k => l.get? k) =
          (t.map (fun k => k - (j + 1))).filterMap (fun k2 => (l.drop (j + 1)).get? k2) := by
        rw [List.filterMap_map]
        apply List.filterMap_congr
        intro k hk
        have hjk : j < k := hp.1 k hk
        simp only [Function.comp_apply]
        rw [List.get?_drop]
        congr 1
        omega
      have hp2 : (t.map (fun k => k - (j + 1))).Pairwise (· < ·) := by
        rw [List.pairwise_map]
        apply List.Pairwise.imp_of_mem ?_ hp.2
        intro a b ha _ hab
        have := hp.1 a ha
        omega
      have ih := sel_sublist_of_sorted (t.map (fun k => k - (j + 1))) hp2 (l.drop (j + 1))
      rw [hshift]
      have hdrop : l.drop j = x :: l.drop (j + 1) := by
        rw [List.drop_eq_getElem_cons hjlen]
        have : l.get ⟨j, hjlen⟩ = x := by
          rw [List.get?_eq_get hjlen] at hj
          exact Option.some.inj hj
        simp only [List.get_eq_getElem] at this
        rw [this]
      have h1 := ih.cons₂ x
      rw [← hdrop] at h1
      exact h1.trans (List.drop_sublist j l)
termination_by js _ _ => js.length
decreasing_by simp [List.length_map]

theorem sel_le_of_nodup {α : Type} (l : List α) (js : List ℕ) (hnd : js.Nodup) :
    (↑(js.filterMap (fun j => l.get? j)) : Multiset α) ≤ ↑l := by
  have hperm : js.Perm (js.mergeSort (fun a b => decide (a ≤ b))) :=
    (List.mergeSort_perm js _).symm
  have hsorted : (js.mergeSort (fun a b => decide (a ≤ b))).Sorted (· ≤ ·) :=
    List.sorted_mergeSort' js
  have hnd2 : (js.mergeSort (fun a b => decide (a ≤ b))).Nodup := hperm.nodup_iff.mp hnd
  have hlt : (js.mergeSort (fun a b => decide (a ≤ b))).Pairwise (· < ·) :=
    (List.Pairwise.and hsorted hnd2).imp (fun h => lt_of_le_of_ne h.1 h.2)
  have hsub := sel_sublist_of_sorted (js.mergeSort (fun a b => decide (a ≤ b))) hlt l
  exact ⟨(js.mergeSort (fun a b => decide (a ≤ b))).filterMap (fun j => l.get? j),
    (hperm.filterMap _).symm, hsub⟩

theorem p2Step3_bound_eq (ansTbl stuTbl : String) (rows : List ColRow) :
    (p2Step3 ansTbl stuTbl rows).filterMap boundStu = rows.filterMap boundStu := by
  unfold p2Step3
  rw [List.filterMap_map]
  apply List.filterMap_congr
  intro r _
  by_cases h : r.score = none
  · simp only [Function.comp_apply, if_pos h]
    have h1 : boundStu ⟨ansTbl, r.c1, r.ty1, some stuTbl, some "—", some "—", some 0,
        some false⟩ = none := by
      dsimp only [boundStu]
      rw [if_pos rfl]
    rw [h1]
    obtain ⟨t1, c1, ty1, t2, c2, ty2, score, ok⟩ := r
    dsimp only at h
    subst h
    rfl
  · simp only [Function.comp_apply, if_neg h]


theorem phase2_one_bound (nf : Char → List Char)
    (sem : String → String → String → String → ℚ) (colSim : ℕ → ℕ → ℚ)
    (assign2 : List (ℕ × ℕ)) (ansTbl st : String) (ansSchema stuSchema : Schema)
    (hsnd2 : (assign2.map Prod.snd).Nodup) :
    ((phase2_one nf sem colSim assign2 ansTbl (some st) ansSchema stuSchema).filterMap
        boundStu : Multiset (String × String)) ≤ ↑(schemaCols stuSchema st) := by
  have hsum := p2Step1_bound nf ansTbl st (schemaCols ansSchema ansTbl)
    (schemaCols stuSchema st).enum
  rw [List.enum_map_snd] at hsum
  by_cases hempty : ((schemaCols ansSchema ansTbl).isEmpty ||
      (schemaCols stuSchema st).isEmpty) = true
  · simp only [phase2_one, hempty, if_true]
    have hnil : ((schemaCols ansSchema ansTbl).map (fun cd =>
        (⟨ansTbl, cd.1, cd.2, some st, some "—", some "—", some 0, some false⟩ :
          ColRow))).filterMap boundStu = [] := by
      rw [List.filterMap_map, List.filterMap_eq_nil_iff]
      intro cd _
      simp only [Function.comp_apply]
      dsimp only [boundStu]
      rw [if_pos rfl]
    rw [hnil]
    exact Multiset.zero_le _
  · simp only [phase2_one, hempty, Bool.false_eq_true, if_false]
    rw [p2Step3_bound_eq]
    by_cases hne : (!((p2Step1 nf ansTbl st (schemaCols ansSchema ansTbl)
          (schemaCols stuSchema st).enum).1.filter (fun r => r.score = none)).isEmpty &&
        !(p2Step1 nf ansTbl st (schemaCols ansSchema ansTbl)
          (schemaCols stuSchema st).enum).2.isEmpty) = true
    · rw [if_pos hne]
      refine le_trans (p2fold_bound _ _ _ _ _ _ assign2 _) ?_
      refine le_trans (add_le_add_left ?_ _) (le_of_eq hsum)
      have heq : assign2.filterMap (fun ij =>
          (((p2Step1 nf ansTbl st (schemaCols ansSchema ansTbl)
            (schemaCols stuSchema st).enum).2.get? ij.2).map Prod.snd)) =
          (assign2.map Prod.snd).filterMap (fun j =>
            ((p2Step1 nf ansTbl st (schemaCols ansSchema ansTbl)
              (schemaCols stuSchema st).enum).2.map Prod.snd).get? j) := by
        rw [List.filterMap_map]
        apply List.filterMap_congr
        intro ij _
        simp only [Function.comp_apply]
        rw [List.get?_map]
      rw [heq]
      exact sel_le_of_nodup _ (assign2.map Prod.snd) hsnd2
    · rw [if_neg hne]
      exact le_trans (Multiset.le_add_right _ _) (le_of_eq hsum)

/-- C4: the `phase1` mapping has exactly the answer tables as its key list
(a permutation of them, values possibly `None`); no two distinct answer
tables are mapped to the same student table; and within one fixed table
pair the column matcher binds each student column occurrence at most once —
the multiset of student columns bound across the result rows is contained
in the student table's column multiset. -/
theorem matcher_injectivity (M : StrMetrics) (ansSchema stuSchema : Schema)
    (sim : ℕ → ℕ → ℚ) (assign : List (ℕ × ℕ)) (TBL_TH : ℚ)
    (nf : Char → List Char) (sem : String → String → String → String → ℚ)
    (colSim : ℕ → ℕ → ℚ) (assign2 : List (ℕ × ℕ)) (ansTbl st : String)
    (hA : (ansSchema.map Prod.fst).Nodup)
    (hS : (stuSchema.map Prod.fst).Nodup)
    (hfst : (assign.map Prod.fst).Nodup)
    (hsnd : (assign.map Prod.snd).Nodup)
    (hbound : ∀ p ∈ assign, p.1 < ansSchema.length ∧ p.2 < stuSchema.length)
    (hsnd2 : (assign2.map Prod.snd).Nodup) :
    ((phase1 M ansSchema stuSchema sim assign TBL_TH).map Prod.fst).Perm
        (ansSchema.map Prod.fst) ∧
    (∀ a1 a2 s : String,
      (phase1 M ansSchema stuSchema sim assign TBL_TH).lookup a1 = some (some s) →
      (phase1 M ansSchema stuSchema sim assign TBL_TH).lookup a2 = some (some s) →
      a1 = a2) ∧
    ((phase2_one nf sem colSim assign2 ansTbl (some st) ansSchema stuSchema).filterMap
        boundStu : Multiset (String × String)) ≤ ↑(schemaCols stuSchema st) :=
  ⟨phase1_keys_perm M ansSchema stuSchema sim assign TBL_TH hA hfst hbound,
   fun a1 a2 s h1 h2 =>
     phase1_mapsto_inj M ansSchema stuSchema sim assign TBL_TH hS hsnd hbound a1 a2 s h1 h2,
   phase2_one_bound nf sem colSim assign2 ansTbl st ansSchema stuSchema hsnd2⟩

/-- Witness for C4 at concrete one-table schemas and the singleton
assignment. -/
theorem matcher_injectivity_witness :
    ((phase1 trivMetrics [("a", ⟨[("x", "int")], [], []⟩)] [("b", ⟨[("x", "int")], [], []⟩)]
        (fun _ _ => 1) [(0, 0)] (mkRat 13 20)).map Prod.fst).Perm
      ([("a", (⟨[("x", "int")], [], []⟩ : TableMeta))].map Prod.fst) ∧
    (∀ a1 a2 s : String,
      (phase1 trivMetrics [("a", ⟨[("x", "int")], [], []⟩)] [("b", ⟨[("x", "int")], [], []⟩)]
        (fun _ _ => 1) [(0, 0)] (mkRat 13 20)).lookup a1 = some (some s) →
      (phase1 trivMetrics [("a", ⟨[("x", "int")], [], []⟩)] [("b", ⟨[("x", "int")], [], []⟩)]
        (fun _ _ => 1) [(0, 0)] (mkRat 13 20)).lookup a2 = some (some s) →
      a1 = a2) ∧
    ((phase2_one (fun c => [c]) (fun _ _ _ _ => 0) (fun _ _ => 0) [] "a" (some "b")
        [("a", ⟨[("x", "int")], [], []⟩)] [("b", ⟨[("x", "int")], [], []⟩)]).filterMap
        boundStu : Multiset (String × String)) ≤
      ↑(schemaCols [("b", (⟨[("x", "int")], [], []⟩ : TableMeta))] "b") :=
  matcher_injectivity trivMetrics
    [("a", ⟨[("x", "int")], [], []⟩)] [("b", ⟨[("x", "int")], [], []⟩)]
    (fun _ _ => 1) [(0, 0)] (mkRat 13 20) (fun c => [c]) (fun _ _ _ _ => 0) (fun _ _ => 0)
    [] "a" "b" (by decide) (by decide) (by decide) (by decide) (by decide) (by decide)


/-! ### `grading/schema_grader.py` -/

/-- The per-table result record appended to `table_results` by
`calc_schema_score`. -/
structure TableResult where
  ans_table : String
  stu_table : String
  cos : ℚ
  enough_cols : Bool
  pk_ok : Bool
  fk_ok : Bool
  matched_cols : ℕ
deriving DecidableEq

/-- The primary-key column list of a table looked up by name. -/
def schemaPk (schema : Schema) (tbl : String) : List String :=
  match schema.lookup tbl with
  | some m => m.pk
  | none => []

/-- The foreign-key list of a table looked up by name. -/
def schemaFks (schema : Schema) (tbl : String) : List FK :=
  match schema.lookup tbl with
  | some m => m.fks
  | none => []

/-- Python `set(l1) == set(l2)` on string lists. -/
def pySetEq (l1 l2 : List String) : Bool :=
  l1.all (fun x => l2.contains x) && l2.all (fun x => l1.contains x)

/-- The matched-column count of the per-pair column loop of
`calc_schema_score`: assigned pairs inside the real (unpadded) part of the
matrix whose cosine reaches `COL_TH` and whose lowercased types are equal. -/
def calcMatched (colSim : ℕ → ℕ → ℚ) (colAssign : List (ℕ × ℕ))
    (ans_cols stu_cols : List (String × String)) (COL_TH : ℚ) : ℕ :=
  (colAssign.filter (fun ij =>
    decide (ij.1 < ans_cols.length) && decide (ij.2 < stu_cols.length) &&
    decide (colSim ij.1 ij.2 ≥ COL_TH) &&
    (match ans_cols.get? ij.1, stu_cols.get? ij.2 with
     | some a, some s => pyLower a.2 == pyLower s.2
     | _, _ => false))).length

/-- One iteration of the scoring loop of `calc_schema_score` for an
accepted table pair `(ans_t, stu_t, cos)`: zero-column pairs short-circuit
to an all-false result; otherwise the matched-column ratio, the raw
primary-key set equality, and the foreign-key matching
(`set(parent_cols)`, `set(ref_cols)` and `ref_tbl` equality) are
computed.  `colSim`/`colAssign` abstract the per-pair embedding cosine
matrix and the solver's assignment over the padded square matrix. -/
def scoreOnePair (colSim : String → String → ℕ → ℕ → ℚ)
    (colAssign : String → String → List (ℕ × ℕ))
    (answer_schema student_schema : Schema) (COL_TH : ℚ)
    (p : String × String × ℚ) : TableResult :=
  let ans_t := p.1
  let stu_t := p.2.1
  let cos := p.2.2
  let ans_cols := schemaCols answer_schema ans_t
  let stu_cols := schemaCols student_schema stu_t
  if ans_cols.isEmpty || stu_cols.isEmpty then
    ⟨ans_t, stu_t, cos, false, false, false, 0⟩
  else
    let matched := calcMatched (colSim ans_t stu_t) (colAssign ans_t stu_t)
      ans_cols stu_cols COL_TH
    let ratio_cols := mkRat matched ans_cols.length
    let enough_cols := decide (ratio_cols ≥ mkRat 4 5)
    let pk_ok := pySetEq (schemaPk answer_schema ans_t) (schemaPk student_schema stu_t)
    let fk_ok := (schemaFks answer_schema ans_t).all (fun f =>
      (schemaFks student_schema stu_t).any (fun f2 =>
        pySetEq f.parent_cols f2.parent_cols && pySetEq f.ref_cols f2.ref_cols &&
        (f.ref_tbl == f2.ref_tbl)))
    ⟨ans_t, stu_t, cos, enough_cols, pk_ok, fk_ok, matched⟩

/-- `calc_schema_score(answer_schema, student_schema, TBL_TH, COL_TH,
SCORE_PER_TABLE)` of `grading/schema_grader.py`.  The table-level cosine
matrix `simT` (zero-padded to square by the source when the student side
is smaller) and the solver's assignment `tblAssign` over it are
parameters; an assigned pair enters `table_pairs` only when its column
index lies in the real student range and its cosine reaches `TBL_TH`.
Returns `(schema_score, table_results)`. -/
def calc_schema_score (answer_schema student_schema : Schema)
    (simT : ℕ → ℕ → ℚ) (tblAssign : List (ℕ × ℕ))
    (colSim : String → String → ℕ → ℕ → ℚ)
    (colAssign : String → String → List (ℕ × ℕ))
    (TBL_TH COL_TH SCORE_PER_TABLE : ℚ) : ℚ × List TableResult :=
  let ans_tbls := answer_schema.map Prod.fst
  let stu_tbls := student_schema.map Prod.fst
  if ans_tbls.isEmpty || stu_tbls.isEmpty then (0, [])
  else
    let n := stu_tbls.length
    let table_pairs := tblAssign.filterMap (fun rc =>
      match ans_tbls.get? rc.1 with
      | some ans_t =>
        if rc.2 < n ∧ simT rc.1 rc.2 ≥ TBL_TH then
          match stu_tbls.get? rc.2 with
          | some stu_t => some (ans_t, stu_t, simT rc.1 rc.2)
          | none => none
        else none
      | none => none)
    let table_results := table_pairs.map
      (scoreOnePair colSim colAssign answer_schema student_schema COL_TH)
    let hit_tables :=
      (table_results.filter (fun tr => tr.enough_cols && tr.pk_ok && tr.fk_ok)).length
    ((hit_tables : ℚ) * SCORE_PER_TABLE, table_results)


theorem pySetEq_iff (l1 l2 : List String) :
    pySetEq l1 l2 = true ↔ (∀ x, x ∈ l1 ↔ x ∈ l2) := by
  unfold pySetEq
  rw [Bool.and_eq_true, List.all_eq_true, List.all_eq_true]
  constructor
  · rintro ⟨h1, h2⟩ x
    exact ⟨fun hx => List.elem_iff.mp (h1 x hx), fun hx => List.elem_iff.mp (h2 x hx)⟩
  · intro h
    exact ⟨fun x hx => List.elem_iff.mpr ((h x).mp hx),
           fun x hx => List.elem_iff.mpr ((h x).mpr hx)⟩

/-- C2 (amended): an accepted table pair counts as a hit exactly when both
sides have at least one column and (a) the matched-column count reaches
0.80 of the answer table's column count, (b) the RAW primary-key column
sets are set-equal (the source does not canonicalize them), and (c) every
answer foreign key has a student foreign key with set-equal parent
columns, set-equal referenced columns and the SAME raw `ref_tbl` name —
the source compares the names directly and does not resolve the referenced
table under the table mapping. -/
theorem calc_hit_characterization (colSim : String → String → ℕ → ℕ → ℚ)
    (colAssign : String → String → List (ℕ × ℕ))
    (answer_schema student_schema : Schema) (COL_TH : ℚ) (p : String × String × ℚ) :
    ((scoreOnePair colSim colAssign answer_schema student_schema COL_TH p).enough_cols &&
     (scoreOnePair colSim colAssign answer_schema student_schema COL_TH p).pk_ok &&
     (scoreOnePair colSim colAssign answer_schema student_schema COL_TH p).fk_ok) = true ↔
      (schemaCols answer_schema p.1 ≠ [] ∧ schemaCols student_schema p.2.1 ≠ [] ∧
       mkRat (calcMatched (colSim p.1 p.2.1) (colAssign p.1 p.2.1)
           (schemaCols answer_schema p.1) (schemaCols student_schema p.2.1) COL_TH)
         (schemaCols answer_schema p.1).length ≥ mkRat 4 5 ∧
       (∀ x, x ∈ schemaPk answer_schema p.1 ↔ x ∈ schemaPk student_schema p.2.1) ∧
       (∀ f ∈ schemaFks answer_schema p.1, ∃ f2 ∈ schemaFks student_schema p.2.1,
         (∀ x, x ∈ f.parent_cols ↔ x ∈ f2.parent_cols) ∧
         (∀ x, x ∈ f.ref_cols ↔ x ∈ f2.ref_cols) ∧ f.ref_tbl = f2.ref_tbl)) := by
  unfold scoreOnePair
  by_cases he : ((schemaCols answer_schema p.1).isEmpty ||
      (schemaCols student_schema p.2.1).isEmpty) = true
  · rw [if_pos he]
    simp only [Bool.false_and, Bool.and_false]
    rw [Bool.or_eq_true, List.isEmpty_iff, List.isEmpty_iff] at he
    constructor
    · intro h; cases h
    · rintro ⟨h1, h2, _⟩
      rcases he with he | he
      · exact absurd he h1
      · exact absurd he h2
  · rw [if_neg he]
    rw [Bool.or_eq_true, List.isEmpty_iff, List.isEmpty_iff] at he
    push_neg at he
    simp only [Bool.and_eq_true, decide_eq_true_eq, List.all_eq_true, List.any_eq_true,
      pySetEq_iff, beq_iff_eq]
    constructor
    · rintro ⟨⟨hratio, hpk⟩, hfk⟩
      refine ⟨he.1, he.2, hratio, hpk, ?_⟩
      intro f hf
      obtain ⟨f2, hf2, ⟨hp2, hr2⟩, ht2⟩ := hfk f hf
      exact ⟨f2, hf2, hp2, hr2, ht2⟩
    · rintro ⟨_, _, hratio, hpk, hfk⟩
      refine ⟨⟨hratio, hpk⟩, ?_⟩
      intro f hf
      obtain ⟨f2, hf2, hp2, hr2, ht2⟩ := hfk f hf
      exact ⟨f2, hf2, ⟨hp2, hr2⟩, ht2⟩

/-- C9: with an empty schema on either side, `phase1` returns the
all-`None` mapping over the answer tables, and `calc_schema_score` returns
score 0 with an empty result list; both functions are total, so no
exception arises. -/
theorem empty_schema_behavior (M : StrMetrics) (ansSchema stuSchema : Schema)
    (sim : ℕ → ℕ → ℚ) (assign : List (ℕ × ℕ)) (TBL_TH : ℚ)
    (simT : ℕ → ℕ → ℚ) (tblAssign : List (ℕ × ℕ))
    (colSim : String → String → ℕ → ℕ → ℚ)
    (colAssign : String → String → List (ℕ × ℕ)) (TBL_TH2 COL_TH SPT : ℚ)
    (h : ansSchema = [] ∨ stuSchema = []) :
    phase1 M ansSchema stuSchema sim assign TBL_TH =
      (ansSchema.map Prod.fst).map (fun a => (a, none)) ∧
    calc_schema_score ansSchema stuSchema simT tblAssign colSim colAssign
      TBL_TH2 COL_TH SPT = (0, []) := by
  have hempty : ((ansSchema.map Prod.fst).isEmpty || (stuSchema.map Prod.fst).isEmpty) = true := by
    rcases h with h | h <;> simp [h]
  constructor
  · simp only [phase1, hempty, if_true]
  · simp only [calc_schema_score, hempty, if_true]

/-- Witness for C9: a one-table answer schema against the empty student
schema. -/
theorem empty_schema_behavior_witness :
    phase1 trivMetrics [("a", ⟨[("x", "int")], [], []⟩)] [] (fun _ _ => 0) [] (mkRat 13 20) =
      ([("a", (⟨[("x", "int")], [], []⟩ : TableMeta))].map Prod.fst).map (fun a => (a, none)) ∧
    calc_schema_score [("a", ⟨[("x", "int")], [], []⟩)] [] (fun _ _ => 0) []
      (fun _ _ _ _ => 0) (fun _ _ => []) (mkRat 4 5) (mkRat 41 50) (mkRat 1 2) = (0, []) :=
  empty_schema_behavior trivMetrics [("a", ⟨[("x", "int")], [], []⟩)] [] (fun _ _ => 0) []
    (mkRat 13 20) (fun _ _ => 0) [] (fun _ _ _ _ => 0) (fun _ _ => [])
    (mkRat 4 5) (mkRat 41 50) (mkRat 1 2) (Or.inr rfl)

/-- C10: the schema score equals `hit_tables · SCORE_PER_TABLE` for a
natural number of hits bounded by the number of answer tables, and for a
nonnegative per-table score it never exceeds
`(number of answer tables) · SCORE_PER_TABLE`. -/
theorem schema_score_bounded (answer_schema student_schema : Schema)
    (simT : ℕ → ℕ → ℚ) (tblAssign : List (ℕ × ℕ))
    (colSim : String → String → ℕ → ℕ → ℚ)
    (colAssign : String → String → List (ℕ × ℕ)) (TBL_TH COL_TH SPT : ℚ)
    (hfst : (tblAssign.map Prod.fst).Nodup)
    (hbound : ∀ p ∈ tblAssign, p.1 < answer_schema.length) :
    ∃ k : ℕ,
      (calc_schema_score answer_schema student_schema simT tblAssign colSim colAssign
        TBL_TH COL_TH SPT).1 = (k : ℚ) * SPT ∧
      k ≤ answer_schema.length ∧
      (0 ≤ SPT →
        (calc_schema_score answer_schema student_schema simT tblAssign colSim colAssign
          TBL_TH COL_TH SPT).1 ≤ (answer_schema.length : ℚ) * SPT) := by
  by_cases hempty : ((answer_schema.map Prod.fst).isEmpty ||
      (student_schema.map Prod.fst).isEmpty) = true
  · refine ⟨0, ?_, by omega, ?_⟩
    · simp only [calc_schema_score, hempty, if_true]
      norm_num
    · intro hSPT
      simp only [calc_schema_score, hempty, if_true]
      positivity
  · have hlen : tblAssign.length ≤ answer_schema.length := by
      have hsub : (tblAssign.map Prod.fst).Subperm (List.range answer_schema.length) :=
        List.subperm_of_subset hfst (by
          intro x hx
          obtain ⟨p, hp, rfl⟩ := List.mem_map.mp hx
          exact List.mem_range.mpr (hbound p hp))
      have := hsub.length_le
      simpa using this
    simp only [calc_schema_score, hempty, Bool.false_eq_true, if_false]
    have hb : ∀ (l : List (String × String × ℚ)), l.length ≤ tblAssign.length →
        ((l.map (scoreOnePair colSim colAssign answer_schema student_schema COL_TH)).filter
          (fun tr => tr.enough_cols && tr.pk_ok && tr.fk_ok)).length ≤
          answer_schema.length := by
      intro l hl
      refine le_trans (List.length_filter_le _ _) ?_
      rw [List.length_map]
      omega
    refine ⟨_, rfl, hb _ (List.length_filterMap_le _ _), fun hSPT => ?_⟩
    apply mul_le_mul_of_nonneg_right _ hSPT
    exact_mod_cast hb _ (List.length_filterMap_le _ _)


section ConcreteEvaluation2

attribute [local semireducible] Rat.add Rat.mul Rat.sub

/-- C2 counterexample: both accepted pairs `("A","SA")` and `("T","U")`
count as hits, although answer table `A`'s foreign key references `T`,
which the accepted table mapping resolves to student table `U`, while
student `SA`'s foreign key references the table literally named `T` — under
the claim's mapping-resolved condition the pair `("A","SA")` would not be
a hit, but the source compares `ref_tbl` names directly and scores
`2 × 0.5 = 1`.  (It also shows pk equality is on raw names: no
canonicalization is involved.) -/
theorem calc_hit_claim_counterexample :
    calc_schema_score
      [("A", ⟨[("x", "int")], ["x"], [⟨"A", ["x"], "T", ["y"]⟩]⟩),
       ("T", ⟨[("y", "int")], ["y"], []⟩)]
      [("SA", ⟨[("x", "int")], ["x"], [⟨"SA", ["x"], "T", ["y"]⟩]⟩),
       ("U", ⟨[("y", "int")], ["y"], []⟩)]
      (fun _ _ => mkRat 9 10) [(0, 0), (1, 1)]
      (fun _ _ _ _ => mkRat 9 10) (fun _ _ => [(0, 0)])
      (mkRat 4 5) (mkRat 41 50) (mkRat 1 2) =
      (1, [⟨"A", "SA", mkRat 9 10, true, true, true, 1⟩,
           ⟨"T", "U", mkRat 9 10, true, true, true, 1⟩]) ∧
    schemaFks
      [("SA", ⟨[("x", "int")], ["x"], [⟨"SA", ["x"], "T", ["y"]⟩]⟩),
       ("U", ⟨[("y", "int")], ["y"], []⟩)] "SA" = [⟨"SA", ["x"], "T", ["y"]⟩] ∧
    ("T" : String) ≠ "U" := by decide

/-- Witness for C10 at the concrete two-table comparison of the C2
scenario. -/
theorem schema_score_bounded_witness :
    ∃ k : ℕ,
      (calc_schema_score
        [("A", ⟨[("x", "int")], ["x"], [⟨"A", ["x"], "T", ["y"]⟩]⟩),
         ("T", ⟨[("y", "int")], ["y"], []⟩)]
        [("SA", ⟨[("x", "int")], ["x"], [⟨"SA", ["x"], "T", ["y"]⟩]⟩),
         ("U", ⟨[("y", "int")], ["y"], []⟩)]
        (fun _ _ => mkRat 9 10) [(0, 0), (1, 1)]
        (fun _ _ _ _ => mkRat 9 10) (fun _ _ => [(0, 0)])
        (mkRat 4 5) (mkRat 41 50) (mkRat 1 2)).1 = (k : ℚ) * mkRat 1 2 ∧
      k ≤ ([("A", (⟨[("x", "int")], ["x"], [⟨"A", ["x"], "T", ["y"]⟩]⟩ : TableMeta)),
            ("T", ⟨[("y", "int")], ["y"], []⟩)] : Schema).length ∧
      (0 ≤ mkRat 1 2 →
        (calc_schema_score
          [("A", ⟨[("x", "int")], ["x"], [⟨"A", ["x"], "T", ["y"]⟩]⟩),
           ("T", ⟨[("y", "int")], ["y"], []⟩)]
          [("SA", ⟨[("x", "int")], ["x"], [⟨"SA", ["x"], "T", ["y"]⟩]⟩),
           ("U", ⟨[("y", "int")], ["y"], []⟩)]
          (fun _ _ => mkRat 9 10) [(0, 0), (1, 1)]
          (fun _ _ _ _ => mkRat 9 10) (fun _ _ => [(0, 0)])
          (mkRat 4 5) (mkRat 41 50) (mkRat 1 2)).1 ≤
          (([("A", (⟨[("x", "int")], ["x"], [⟨"A", ["x"], "T", ["y"]⟩]⟩ : TableMeta)),
             ("T", ⟨[("y", "int")], ["y"], []⟩)] : Schema).length : ℚ) * mkRat 1 2) :=
  schema_score_bounded
    [("A", ⟨[("x", "int")], ["x"], [⟨"A", ["x"], "T", ["y"]⟩]⟩),
     ("T", ⟨[("y", "int")], ["y"], []⟩)]
    [("SA", ⟨[("x", "int")], ["x"], [⟨"SA", ["x"], "T", ["y"]⟩]⟩),
     ("U", ⟨[("y", "int")], ["y"], []⟩)]
    (fun _ _ => mkRat 9 10) [(0, 0), (1, 1)]
    (fun _ _ _ _ => mkRat 9 10) (fun _ _ => [(0, 0)])
    (mkRat 4 5) (mkRat 41 50) (mkRat 1 2) (by decide) (by decide)

end ConcreteEvaluation2

/-! ### C3: the identity comparison -/

/-- A full assignment whose total cost is at most the diagonal's, against a
cost matrix in which each row's diagonal entry is strictly smallest,
consists of diagonal pairs only. -/
theorem diag_of_optimal (c : ℕ → ℕ → ℚ) (n : ℕ) (assign : List (ℕ × ℕ))
    (h1 : assign.length = n)
    (h2 : (assign.map Prod.fst).Nodup)
    (h3 : ∀ p ∈ assign, p.1 < n ∧ p.2 < n)
    (h4 : ∀ i j, i < n → j < n → j ≠ i → c i i < c i j)
    (h5 : (assign.map (fun p => c p.1 p.2)).sum ≤
      ((List.range n).map (fun i => c i i)).sum) :
    ∀ p ∈ assign, p.1 = p.2 := by
  have hperm : (assign.map Prod.fst).Perm (List.range n) := by
    have hsub : (assign.map Prod.fst).Subperm (List.range n) :=
      List.subperm_of_subset h2 (by
        intro x hx
        obtain ⟨p, hp, rfl⟩ := List.mem_map.mp hx
        exact List.mem_range.mpr (h3 p hp).1)
    exact hsub.perm_of_length_le (by simp [h1])
  have hdiagsum : (assign.map (fun p => c p.1 p.1)).sum =
      ((List.range n).map (fun i => c i i)).sum := by
    have hmm : assign.map (fun p => c p.1 p.1) =
        (assign.map Prod.fst).map (fun i => c i i) := by
      rw [List.map_map]
      rfl
    rw [hmm]
    exact (hperm.map (fun i => c i i)).sum_eq
  by_contra hcon
  push_neg at hcon
  obtain ⟨q, hq, hqne⟩ := hcon
  have hlt : (assign.map (fun p => c p.1 p.1)).sum <
      (assign.map (fun p => c p.1 p.2)).sum := by
    apply List.sum_lt_sum
    · intro p hp
      by_cases he : p.1 = p.2
      · rw [he]
      · exact le_of_lt (h4 p.1 p.2 (h3 p hp).1 (h3 p hp).2 (fun h => he h.symm))
    · exact ⟨q, hq, h4 q.1 q.2 (h3 q hq).1 (h3 q hq).2 (fun h => hqne h.symm)⟩
  rw [hdiagsum] at hlt
  exact absurd h5 (not_le.mpr hlt)

/-- A full assignment with distinct in-range row indices covers every row
index below `n`. -/
theorem assign_covers (n : ℕ) (assign : List (ℕ × ℕ))
    (h1 : assign.length = n)
    (h2 : (assign.map Prod.fst).Nodup)
    (h3 : ∀ p ∈ assign, p.1 < n ∧ p.2 < n)
    (i : ℕ) (hi : i < n) : ∃ p ∈ assign, p.1 = i := by
  have hperm : (assign.map Prod.fst).Perm (List.range n) := by
    have hsub : (assign.map Prod.fst).Subperm (List.range n) :=
      List.subperm_of_subset h2 (by
        intro x hx
        obtain ⟨p, hp, rfl⟩ := List.mem_map.mp hx
        exact List.mem_range.mpr (h3 p hp).1)
    exact hsub.perm_of_length_le (by simp [h1])
  have hmem : i ∈ assign.map Prod.fst := hperm.mem_iff.mpr (List.mem_range.mpr hi)
  obtain ⟨p, hp, hpe⟩ := List.mem_map.mp hmem
  exact ⟨p, hp, hpe⟩

/-- The name test of `count_matching_columns` accepts a column against
itself: canonical equality is reflexive. -/
theorem countNameMatch_refl (M : StrMetrics) (th : ℚ) (c : String) :
    countNameMatch M th c c = true := by
  simp [countNameMatch]

/-- The flexible type test of `count_matching_columns` accepts a type
against itself. -/
theorem countTypeCompatible_refl (t : String) :
    countTypeCompatible t t = true := by
  simp [countTypeCompatible]

/-- A nonempty column list has at least one matching column with itself:
the head column is an exact self-match. -/
theorem cmc_diag_pos (M : StrMetrics) (th : ℚ) (cols : List (String × String))
    (h : cols ≠ []) : 1 ≤ count_matching_columns M cols cols th := by
  rcases cols with _ | ⟨⟨c, t⟩, rest⟩
  · exact absurd rfl h
  · unfold count_matching_columns
    have hfind : (((c, t) :: rest).enum).find?
        (fun e => countNameMatch M th c e.2.1 && countTypeCompatible t e.2.2) =
        some (0, (c, t)) := by
      rw [show ((c, t) :: rest).enum = (0, (c, t)) :: rest.enumFrom 1 from rfl]
      exact List.find?_cons_of_pos _ (by simp [countNameMatch_refl, countTypeCompatible_refl])
    simp only [cmcGo, hfind]
    omega

/-- The exact-match test of step 1 of `phase2_one` is reflexive. -/
theorem exactColMatch_refl (nf : Char → List Char) (c : String) :
    exactColMatch nf c c = true := by
  simp [exactColMatch]

/-- Step 1 of `phase2_one` on a table compared against itself binds every
answer column to its own occurrence: the column's own entry is always the
first available exact match, so every row scores 1.0 with
`same_type(ty, ty, c, c)` and no student column is left over. -/
theorem p2Step1_diag (nf : Char → List Char) (t : String) :
    ∀ (l : List (String × String)) (k : ℕ),
      p2Step1 nf t t l (l.enumFrom k) =
        (l.map (fun cd => ⟨t, cd.1, cd.2, some t, some cd.1, some cd.2, some 1,
          some (same_type cd.2 cd.2 cd.1 cd.1)⟩), []) := by
  intro l
  induction l with
  | nil => intro k; rfl
  | cons cd rest ih =>
    intro k
    obtain ⟨c, ty⟩ := cd
    have hfind : (((c, ty) :: rest).enumFrom k).find?
        (fun e => exactColMatch nf c e.2.1) = some (k, (c, ty)) := by
      rw [show ((c, ty) :: rest).enumFrom k = (k, (c, ty)) :: rest.enumFrom (k + 1) from rfl]
      exact List.find?_cons_of_pos _ (by simp [exactColMatch_refl])
    have herase : eraseEntry (((c, ty) :: rest).enumFrom k) (k, (c, ty)) =
        rest.enumFrom (k + 1) := by
      rw [show ((c, ty) :: rest).enumFrom k = (k, (c, ty)) :: rest.enumFrom (k + 1) from rfl]
      simp [eraseEntry]
    simp only [p2Step1, hfind, herase, ih (k + 1), List.map_cons]

/-- `phase2_one` on a table paired with itself inside one schema: every
answer column binds to itself in step 1 with score 1.0 and
`type_compatible = same_type(ty, ty, c, c)`; steps 2 and 3 then leave the
rows unchanged.  Holds for every semantic scorer, cosine matrix and
assignment. -/
theorem phase2_one_diag (nf : Char → List Char) (sem : String → String → String → String → ℚ)
    (colSimP : ℕ → ℕ → ℚ) (assign2 : List (ℕ × ℕ)) (t : String) (S : Schema) :
    phase2_one nf sem colSimP assign2 t (some t) S S =
      (schemaCols S t).map (fun cd => ⟨t, cd.1, cd.2, some t, some cd.1, some cd.2, some 1,
        some (same_type cd.2 cd.2 cd.1 cd.1)⟩) := by
  simp only [phase2_one]
  rcases hc : schemaCols S t with _ | ⟨cd0, rest0⟩
  · simp
  · simp only [List.isEmpty_cons, Bool.or_self, Bool.false_eq_true, if_false]
    rw [show (cd0 :: rest0).enum = (cd0 :: rest0).enumFrom 0 from rfl]
    rw [p2Step1_diag nf t (cd0 :: rest0) 0]
    simp only []
    have hneedA : (((cd0 :: rest0).map (fun cd => (⟨t, cd.1, cd.2, some t, some cd.1,
        some cd.2, some 1, some (same_type cd.2 cd.2 cd.1 cd.1)⟩ : ColRow))).filter
        (fun r => r.score = none)) = [] := by
      rw [List.filter_eq_nil_iff]
      intro r hr
      obtain ⟨cd, _, rfl⟩ := List.mem_map.mp hr
      simp
    rw [hneedA]
    simp only [List.isEmpty_nil, Bool.not_true, Bool.false_and, Bool.false_eq_true, if_false]
    unfold p2Step3
    rw [List.map_map]
    refine List.map_eq_map_iff.mpr ?_
    intro cd _
    simp

/-- Python set equality is reflexive. -/
theorem pySetEq_refl (l : List String) : pySetEq l l = true :=
  (pySetEq_iff l l).mpr (fun _ => Iff.rfl)

/-- The foreign-key check of `calc_schema_score` accepts a foreign-key list
against itself: each key matches its own copy. -/
theorem fkAll_refl (fks : List FK) :
    (fks.all (fun f => fks.any (fun f2 =>
      pySetEq f.parent_cols f2.parent_cols && pySetEq f.ref_cols f2.ref_cols &&
      (f.ref_tbl == f2.ref_tbl)))) = true := by
  rw [List.all_eq_true]
  intro f hf
  rw [List.any_eq_true]
  exact ⟨f, hf, by simp [pySetEq_refl]⟩

/-- A table name among the schema keys has the column list of its entry,
nonempty under the every-table-has-columns hypothesis. -/
theorem schemaCols_mem_ne_nil (S : Schema) (t : String)
    (ht : t ∈ S.map Prod.fst) (hcols : ∀ e ∈ S, e.2.cols ≠ []) :
    schemaCols S t ≠ [] := by
  unfold schemaCols
  rcases hl : S.lookup t with _ | m
  · exact absurd ht ((lookup_eq_none_iff S t).mp hl)
  · exact hcols (t, m) (lookup_some_mem S t m hl)

/-- `scoreOnePair` on a table paired with itself: with a diagonal in-range
column assignment covering all columns and diagonal cosines reaching
`COL_TH`, every check passes and every column counts as matched. -/
theorem scoreOnePair_diag (colSim : String → String → ℕ → ℕ → ℚ)
    (colAssign : String → String → List (ℕ × ℕ)) (S : Schema) (COL_TH : ℚ)
    (t : String) (cos : ℚ)
    (hne : schemaCols S t ≠ [])
    (hlen : (colAssign t t).length = (schemaCols S t).length)
    (hdiag : ∀ p ∈ colAssign t t, p.1 = p.2)
    (hb : ∀ p ∈ colAssign t t, p.1 < (schemaCols S t).length ∧
      p.2 < (schemaCols S t).length)
    (hth : ∀ i, i < (schemaCols S t).length → COL_TH ≤ colSim t t i i) :
    scoreOnePair colSim colAssign S S COL_TH (t, t, cos) =
      ⟨t, t, cos, true, true, true, (schemaCols S t).length⟩ := by
  have hall : ∀ p ∈ colAssign t t,
      (decide (p.1 < (schemaCols S t).length) && decide (p.2 < (schemaCols S t).length) &&
       decide (colSim t t p.1 p.2 ≥ COL_TH) &&
       (match (schemaCols S t).get? p.1, (schemaCols S t).get? p.2 with
        | some a, some s => pyLower a.2 == pyLower s.2
        | _, _ => false)) = true := by
    intro p hp
    obtain ⟨i, j⟩ := p
    have hd : i = j := hdiag (i, j) hp
    subst hd
    obtain ⟨hb1, _⟩ := hb (i, i) hp
    have hg : (schemaCols S t).get? i = some ((schemaCols S t).get ⟨i, hb1⟩) :=
      List.get?_eq_get hb1
    simp [hb1, hth i hb1, hg]
  have hmatched : calcMatched (colSim t t) (colAssign t t)
      (schemaCols S t) (schemaCols S t) COL_TH = (schemaCols S t).length := by
    unfold calcMatched
    rw [List.filter_eq_self.mpr hall, hlen]
  have hk : 1 ≤ (schemaCols S t).length := List.length_pos.mpr hne
  have hrat : mkRat ((schemaCols S t).length : ℤ) (schemaCols S t).length ≥ mkRat 4 5 := by
    rw [Rat.mkRat_eq_div]
    push_cast
    rw [div_self (by exact_mod_cast Nat.one_le_iff_ne_zero.mp hk)]
    rw [show ((mkRat 4 5 : ℚ)) = 4 / 5 by norm_num [Rat.mkRat_eq_div]]
    norm_num
  have hemp : ((schemaCols S t).isEmpty || (schemaCols S t).isEmpty) = false := by
    rw [List.isEmpty_eq_false.mpr hne]
    rfl
  simp only [scoreOnePair, hemp, Bool.false_eq_true, if_false]
  rw [hmatched, pySetEq_refl, fkAll_refl, decide_eq_true hrat]

/-- C3 (corrected): comparing a schema against an identical copy of itself
— with distinct table names, at least one column per table, embedding
cosines that favour the diagonal, and cost-optimal full solver assignments
— yields the identity table mapping, one column record per answer column
bound to the same column with score 1.0, and the full score
`(number of tables) · SCORE_PER_TABLE`.  However, the `type_compatible`
flag of a self-matched record is `same_type(ty, ty, c, c)`, which is NOT
always `True`: it is `False` for a code-named column (`is_code_column`)
whose type is neither a string nor an integer type, so the claim's "every
column match record has `type_compatible = True`" clause fails. -/
theorem identity_comparison (M : StrMetrics) (S : Schema)
    (sim : ℕ → ℕ → ℚ) (assign : List (ℕ × ℕ)) (TBL_TH : ℚ)
    (sem : String → String → String → String → ℚ)
    (colSimP : ℕ → ℕ → ℚ) (assign2 : List (ℕ × ℕ))
    (simT : ℕ → ℕ → ℚ) (tblAssign : List (ℕ × ℕ))
    (colSim : String → String → ℕ → ℕ → ℚ)
    (colAssign : String → String → List (ℕ × ℕ))
    (COL_TH SPT : ℚ)
    (hSne : S ≠ [])
    (hnd : (S.map Prod.fst).Nodup)
    (hcols : ∀ e ∈ S, e.2.cols ≠ [])
    (hsimd : ∀ i, i < S.length → mkRat 1 2 ≤ sim i i)
    (hA1 : assign.length = S.length)
    (hA2 : (assign.map Prod.fst).Nodup)
    (hA3 : ∀ p ∈ assign, p.1 < S.length ∧ p.2 < S.length)
    (hA4 : ∀ i j, i < S.length → j < S.length → j ≠ i →
      phase1Cost (p1ColOverlap M S S) sim i i < phase1Cost (p1ColOverlap M S S) sim i j)
    (hA5 : (assign.map (fun p => phase1Cost (p1ColOverlap M S S) sim p.1 p.2)).sum ≤
      ((List.range S.length).map (fun i => phase1Cost (p1ColOverlap M S S) sim i i)).sum)
    (hT0 : ∀ i, i < S.length → TBL_TH ≤ simT i i)
    (hT1 : tblAssign.length = S.length)
    (hT2 : (tblAssign.map Prod.fst).Nodup)
    (hT3 : ∀ p ∈ tblAssign, p.1 < S.length ∧ p.2 < S.length)
    (hT4 : ∀ i j, i < S.length → j < S.length → j ≠ i → simT i j < simT i i)
    (hT5 : (tblAssign.map (fun p => -simT p.1 p.2)).sum ≤
      ((List.range S.length).map (fun i => -simT i i)).sum)
    (hC0 : ∀ t ∈ S.map Prod.fst, ∀ i, i < (schemaCols S t).length → COL_TH ≤ colSim t t i i)
    (hC1 : ∀ t ∈ S.map Prod.fst, (colAssign t t).length = (schemaCols S t).length)
    (hC2 : ∀ t ∈ S.map Prod.fst, ((colAssign t t).map Prod.fst).Nodup)
    (hC3 : ∀ t ∈ S.map Prod.fst, ∀ p ∈ colAssign t t,
      p.1 < (schemaCols S t).length ∧ p.2 < (schemaCols S t).length)
    (hC4 : ∀ t ∈ S.map Prod.fst, ∀ i j, i < (schemaCols S t).length →
      j < (schemaCols S t).length → j ≠ i → colSim t t i j < colSim t t i i)
    (hC5 : ∀ t ∈ S.map Prod.fst,
      ((colAssign t t).map (fun p => -colSim t t p.1 p.2)).sum ≤
      ((List.range (schemaCols S t).length).map (fun i => -colSim t t i i)).sum) :
    (∀ a ∈ S.map Prod.fst,
      (phase1 M S S sim assign TBL_TH).lookup a = some (some a)) ∧
    (∀ t ∈ S.map Prod.fst,
      phase2_one M.nf sem colSimP assign2 t (some t) S S =
        (schemaCols S t).map (fun cd => ⟨t, cd.1, cd.2, some t, some cd.1, some cd.2,
          some 1, some (same_type cd.2 cd.2 cd.1 cd.1)⟩)) ∧
    (calc_schema_score S S simT tblAssign colSim colAssign TBL_TH COL_TH SPT).1 =
      (S.length : ℚ) * SPT ∧
    (∀ tr ∈ (calc_schema_score S S simT tblAssign colSim colAssign TBL_TH COL_TH SPT).2,
      tr.stu_table = tr.ans_table ∧ tr.enough_cols = true ∧ tr.pk_ok = true ∧
      tr.fk_ok = true ∧ tr.matched_cols = (schemaCols S tr.ans_table).length) := by
  have hmapne : S.map Prod.fst ≠ [] := fun hmn => hSne (List.map_eq_nil_iff.mp hmn)
  have hcne : (S.map Prod.fst).isEmpty = false := List.isEmpty_eq_false.mpr hmapne
  have hhalf : (mkRat 1 2 : ℚ) = 1 / 2 := by norm_num [Rat.mkRat_eq_div]
  have hAdiag : ∀ p ∈ assign, p.1 = p.2 :=
    diag_of_optimal _ S.length assign hA1 hA2 hA3 hA4 hA5
  have hTdiag : ∀ p ∈ tblAssign, p.1 = p.2 :=
    diag_of_optimal (fun i j => -simT i j) S.length tblAssign hT1 hT2 hT3
      (fun i j hi hj hne2 => neg_lt_neg_iff.mpr (hT4 i j hi hj hne2)) hT5
  have hCdiag : ∀ t ∈ S.map Prod.fst, ∀ p ∈ colAssign t t, p.1 = p.2 := fun t ht =>
    diag_of_optimal (fun i j => -colSim t t i j) (schemaCols S t).length (colAssign t t)
      (hC1 t ht) (hC2 t ht) (hC3 t ht)
      (fun i j hi hj hne2 => neg_lt_neg_iff.mpr (hC4 t ht i j hi hj hne2)) (hC5 t ht)
  have hres : ∀ p ∈ tblAssign,
      scoreOnePair colSim colAssign S S COL_TH
        ((S.map Prod.fst).getD p.1 "", (S.map Prod.fst).getD p.1 "", simT p.1 p.2) =
      ⟨(S.map Prod.fst).getD p.1 "", (S.map Prod.fst).getD p.1 "", simT p.1 p.2,
        true, true, true, (schemaCols S ((S.map Prod.fst).getD p.1 "")).length⟩ := by
    intro p hp
    obtain ⟨hp1, _⟩ := hT3 p hp
    have hp1m : p.1 < (S.map Prod.fst).length := by simpa using hp1
    have htm : (S.map Prod.fst).getD p.1 "" ∈ S.map Prod.fst := by
      rw [List.getD_eq_get _ _ hp1m]
      exact List.get_mem _ _ hp1m
    exact scoreOnePair_diag colSim colAssign S COL_TH _ _
      (schemaCols_mem_ne_nil S _ htm hcols) (hC1 _ htm) (hCdiag _ htm) (hC3 _ htm) (hC0 _ htm)
  have hpairs : tblAssign.filterMap (fun rc =>
      match (S.map Prod.fst).get? rc.1 with
      | some ans_t =>
        if rc.2 < (S.map Prod.fst).length ∧ simT rc.1 rc.2 ≥ TBL_TH then
          match (S.map Prod.fst).get? rc.2 with
          | some stu_t => some (ans_t, stu_t, simT rc.1 rc.2)
          | none => none
        else none
      | none => none) =
      tblAssign.map (fun rc => ((S.map Prod.fst).getD rc.1 "",
        (S.map Prod.fst).getD rc.1 "", simT rc.1 rc.2)) := by
    apply List.filterMap_eq_map_iff_forall_eq_some.mpr
    intro p hp
    obtain ⟨i, j⟩ := p
    have hd : i = j := hTdiag (i, j) hp
    subst hd
    obtain ⟨hiL, _⟩ := hT3 (i, i) hp
    have hiM : i < (S.map Prod.fst).length := by simpa using hiL
    have hg : (S.map Prod.fst).get? i = some ((S.map Prod.fst).getD i "") := by
      rw [List.get?_eq_get hiM, List.getD_eq_get _ _ hiM]
    simp only [hg]
    rw [if_pos ⟨hiM, hT0 i hiL⟩]
  have hfilter : (((tblAssign.map (fun rc => ((S.map Prod.fst).getD rc.1 "",
      (S.map Prod.fst).getD rc.1 "", simT rc.1 rc.2))).map
        (scoreOnePair colSim colAssign S S COL_TH)).filter
      (fun tr => tr.enough_cols && tr.pk_ok && tr.fk_ok)) =
      (tblAssign.map (fun rc => ((S.map Prod.fst).getD rc.1 "",
        (S.map Prod.fst).getD rc.1 "", simT rc.1 rc.2))).map
        (scoreOnePair colSim colAssign S S COL_TH) := by
    apply List.filter_eq_self.mpr
    intro tr htr
    obtain ⟨q, hq, rfl⟩ := List.mem_map.mp htr
    obtain ⟨p, hp, rfl⟩ := List.mem_map.mp hq
    rw [hres p hp]
    rfl
  have hfull : calc_schema_score S S simT tblAssign colSim colAssign TBL_TH COL_TH SPT =
      ((S.length : ℚ) * SPT,
       (tblAssign.map (fun rc => ((S.map Prod.fst).getD rc.1 "",
         (S.map Prod.fst).getD rc.1 "", simT rc.1 rc.2))).map
         (scoreOnePair colSim colAssign S S COL_TH)) := by
    simp only [calc_schema_score, hcne, Bool.or_self, Bool.false_eq_true, if_false]
    rw [hpairs, hfilter]
    simp only [List.length_map, hT1]
  refine ⟨?_, fun t _ => phase2_one_diag M.nf sem colSimP assign2 t S, ?_, ?_⟩
  · intro a ha
    obtain ⟨i, hi⟩ := List.mem_iff_get?.mp ha
    have hiL : i < S.length := by
      have := (List.get?_eq_some.mp hi).1
      simpa using this
    obtain ⟨p, hp, hpe⟩ := assign_covers S.length assign hA1 hA2 hA3 i hiL
    obtain ⟨p1, p2⟩ := p
    have h1 : p1 = i := hpe
    have h2 : p1 = p2 := hAdiag (p1, p2) hp
    rw [h1] at h2 hp
    rw [← h2] at hp
    have hcolsAt : colsAt S i ≠ [] := by
      unfold colsAt
      rw [List.get?_eq_get hiL]
      exact hcols (S.get ⟨i, hiL⟩) (List.get_mem S i hiL)
    have hcolM : 1 ≤ p1ColOverlap M S S i i := cmc_diag_pos M 70 (colsAt S i) hcolsAt
    have hs2 : mkRat 1 2 ≤ sim i i := hsimd i hiL
    rw [hhalf] at hs2
    have hlook := fromAssign_lookup (S.map Prod.fst) (S.map Prod.fst)
      (p1ColOverlap M S S) sim TBL_TH assign hA2
      (fun q hq => by simpa using hA3 q hq) hnd i i a a hp hi hi
    simp only [phase1, hcne, Bool.or_self, Bool.false_eq_true, if_false]
    simp only [phase1Build]
    rw [lookup_append_some _ _ a _ hlook]
    rw [phase1Decision_eq _ _ _ _ _ _ (by linarith)]
    rw [if_pos ⟨hcolM, Or.inl hs2⟩]
  · rw [hfull]
  · rw [hfull]
    intro tr htr
    obtain ⟨q, hq, rfl⟩ := List.mem_map.mp htr
    obtain ⟨p, hp, rfl⟩ := List.mem_map.mp hq
    rw [hres p hp]
    exact ⟨rfl, rfl, rfl, rfl, rfl⟩

section ConcreteEvaluation3

attribute [local semireducible] Rat.add Rat.mul Rat.sub

set_option maxHeartbeats 2000000 in
/-- C3 counterexample: on the self-comparison of a schema whose single
table has the single column `("mad", "datetime")`, the table mapping is
the identity and the column binds to itself with score 1.0 — yet its
`type_compatible` flag is `False`, because `"mad"` is code-named (it
starts with the keyword `"ma"`) and `datetime` is neither a string nor an
integer type, so `same_type("datetime", "datetime", "mad", "mad")` is
`False`: identity comparison does not give every record
`type_compatible = True`. -/
theorem identity_claim_counterexample :
    phase1 trivMetrics [("t", ⟨[("mad", "datetime")], ["mad"], []⟩)]
        [("t", ⟨[("mad", "datetime")], ["mad"], []⟩)] (fun _ _ => 1) [(0, 0)]
        (mkRat 13 20) = [("t", some "t")] ∧
    phase2_one trivMetrics.nf (fun _ _ _ _ => 0) (fun _ _ => 0) [] "t" (some "t")
        [("t", ⟨[("mad", "datetime")], ["mad"], []⟩)]
        [("t", ⟨[("mad", "datetime")], ["mad"], []⟩)] =
      [⟨"t", "mad", "datetime", some "t", some "mad", some "datetime", some 1, some false⟩] ∧
    same_type "datetime" "datetime" "mad" "mad" = false := by
  decide

/-- The one-table schema of the C3 witness. -/
def idWitnessSchema : Schema := [("t", ⟨[("x", "int")], ["x"], []⟩)]

/-- Witness for C3 (corrected) at a one-table, one-column schema, with the
diagonal solver assignments and cosine 1 everywhere. -/
theorem identity_comparison_witness :
    (∀ a ∈ idWitnessSchema.map Prod.fst,
      (phase1 trivMetrics idWitnessSchema idWitnessSchema (fun _ _ => 1) [(0, 0)]
        (mkRat 13 20)).lookup a = some (some a)) ∧
    (∀ t ∈ idWitnessSchema.map Prod.fst,
      phase2_one trivMetrics.nf (fun _ _ _ _ => 0) (fun _ _ => 0) [] t (some t)
        idWitnessSchema idWitnessSchema =
        (schemaCols idWitnessSchema t).map (fun cd => ⟨t, cd.1, cd.2, some t, some cd.1,
          some cd.2, some 1, some (same_type cd.2 cd.2 cd.1 cd.1)⟩)) ∧
    (calc_schema_score idWitnessSchema idWitnessSchema (fun _ _ => 1) [(0, 0)]
      (fun _ _ _ _ => 1) (fun _ _ => [(0, 0)]) (mkRat 13 20) (mkRat 41 50)
      (mkRat 1 2)).1 = (idWitnessSchema.length : ℚ) * mkRat 1 2 ∧
    (∀ tr ∈ (calc_schema_score idWitnessSchema idWitnessSchema (fun _ _ => 1) [(0, 0)]
      (fun _ _ _ _ => 1) (fun _ _ => [(0, 0)]) (mkRat 13 20) (mkRat 41 50)
      (mkRat 1 2)).2,
      tr.stu_table = tr.ans_table ∧ tr.enough_cols = true ∧ tr.pk_ok = true ∧
      tr.fk_ok = true ∧ tr.matched_cols = (schemaCols idWitnessSchema tr.ans_table).length) :=
  identity_comparison trivMetrics idWitnessSchema (fun _ _ => 1) [(0, 0)] (mkRat 13 20)
    (fun _ _ _ _ => 0) (fun _ _ => 0) [] (fun _ _ => 1) [(0, 0)]
    (fun _ _ _ _ => 1) (fun _ _ => [(0, 0)]) (mkRat 41 50) (mkRat 1 2)
    (by decide) (by decide) (by decide)
    (by intro i hi; exact (by decide : (mkRat 1 2 : ℚ) ≤ 1))
    rfl (by decide) (by decide)
    (by
      intro i j hi hj hne
      rw [show idWitnessSchema.length = 1 from rfl] at hi hj
      exact absurd (by omega) hne)
    (le_of_eq rfl)
    (by intro i hi; exact (by decide : (mkRat 13 20 : ℚ) ≤ 1))
    rfl (by decide) (by decide)
    (by
      intro i j hi hj hne
      rw [show idWitnessSchema.length = 1 from rfl] at hi hj
      exact absurd (by omega) hne)
    (le_of_eq rfl)
    (by intro t ht i hi; exact (by decide : (mkRat 41 50 : ℚ) ≤ 1))
    (by
      intro t ht
      obtain rfl : t = "t" := by simpa [idWitnessSchema] using ht
      decide)
    (by
      intro t ht
      obtain rfl : t = "t" := by simpa [idWitnessSchema] using ht
      decide)
    (by
      intro t ht
      obtain rfl : t = "t" := by simpa [idWitnessSchema] using ht
      decide)
    (by
      intro t ht i j hi hj hne
      obtain rfl : t = "t" := by simpa [idWitnessSchema] using ht
      rw [show (schemaCols idWitnessSchema "t").length = 1 from rfl] at hi hj
      exact absurd (by omega) hne)
    (by
      intro t ht
      obtain rfl : t = "t" := by simpa [idWitnessSchema] using ht
      exact le_of_eq rfl)

end ConcreteEvaluation3


end SchemaGrader
